import Mathlib

/-
Shallow embedding of src/metaobject/objects.py (the metaobject library).

The embedding models Python values occurring in this domain with the
inductive type `Value`, MetaObject instances with `Inst`, and a MetaObject
subclass declaration (the class-level schema: _required, _optional, _types,
_compared, _printed, _unlisted) with `KindD`.  Machine-level details that
the claims do not touch are modelled as follows:

* Attribute stores (Python dicts / __dict__) are association lists
  `List (String × Value)`; the construction pipeline keeps their keys
  duplicate-free, mirroring real Python dicts, so a first-match lookup
  agrees with Python lookup.  Python dict iteration order is arbitrary in
  Python 2; the model fixes a deterministic order, and no claim depends on
  the order.
* `_ununicode` is the identity: all keys are already canonical strings.
* Exceptions are modelled with `Except PErr`; `logger.error` calls are
  modelled by a `List LogEntry` component returned next to the result where
  a claim talks about logging.
* Declared constructors (`_types` values) are the scalar conversions
  `int` and `str` (the spec scenarios use exactly these), plus the
  list-of marker `[C]`; `int(v)` is modelled on the value shapes the
  claims exercise (ints and decimal strings succeed, everything else
  raises, as `int` does on non-numeric input).
* The JSON text encoder/decoder is, per the spec, an external primitive:
  serialising to text and parsing back is the identity on plain
  JSON-shaped data, so `dumps`-then-`loads` is modelled as the net
  data-to-data transform of `json.dumps(self.to_json(),
  default=object_to_json)` followed by `json.loads`.
-/

set_option maxHeartbeats 1000000

namespace Metaobject

/-- A declared scalar constructor usable in `_types`. -/
inductive Ctor where
  | cint : Ctor
  | cstr : Ctor
deriving DecidableEq, Repr

/-- A `_types` entry: either a scalar constructor `C` or the list marker `[C]`. -/
inductive TypeSpec where
  | scalar (c : Ctor) : TypeSpec
  | listOf (c : Ctor) : TypeSpec
deriving DecidableEq, Repr

/-- The `_unlisted` policy values 'del' and 'raise'; Python `None` (ignore)
is modelled by `Option.none` around this type. -/
inductive UPol where
  | udel : UPol
  | uraise : UPol
deriving DecidableEq, Repr

mutual
/-- A Python value in the domain of this library: None, int, str, a
datetime (carrying its isoformat text), a list, a dict, a MetaObject
instance, or a foreign object (which may or may not expose `to_json`,
whose result is carried when present). -/
inductive Value where
  | vnone : Value
  | vint (n : Int) : Value
  | vstr (s : String) : Value
  | vdatetime (iso : String) : Value
  | vlist (vs : List Value) : Value
  | vdict (kvs : List (String × Value)) : Value
  | vobj (i : Inst) : Value
  | vforeign (conv : Option Value) : Value
/-- A MetaObject instance: its class (kind) and its data attributes.  The
instance bookkeeping attributes `_reserved`, `_compared`, `_printed`
that `__init__` stores in `self.__dict__` are determined by the kind and
are reattached by `varsOf` where the code reads `vars(obj)`. -/
inductive Inst where
  | mk (kind : KindD) (attrs : List (String × Value)) : Inst
/-- A MetaObject subclass declaration: the class-level schema data. -/
inductive KindD where
  | mk (name : String) (required : List String) (optional : List (String × Value))
      (types : List (String × TypeSpec)) (compared : List String) (printed : List String)
      (unlisted : Option UPol) : KindD
end

/-- Errors raised by the modelled code (Python exception taxonomy:
`missingAttr`/`unlistedAttr`/`getattrFail` are AttributeError,
`invalidInput` is TypeError, `intParseFail`/`serializationFail` are
ValueError, `notCoercible`/`notIterable` are TypeError). -/
inductive PErr where
  | missingAttr (attr : String) (input : Value) : PErr
  | unlistedAttr (attr : String) : PErr
  | invalidInput (input : Value) : PErr
  | getattrFail (attr : String) : PErr
  | intParseFail (s : String) : PErr
  | notCoercible (c : Ctor) (v : Value) : PErr
  | notIterable (v : Value) : PErr
  | serializationFail (v : Value) : PErr

/-- An error-level log record, carrying the full context the code formats
into the message. -/
inductive LogEntry where
  | coercionFailure (ts : TypeSpec) (attr : String) (v : Value) : LogEntry
  | serFailure (v : Value) : LogEntry

def KindD.name : KindD → String
  | .mk n _ _ _ _ _ _ => n

def KindD.required : KindD → List String
  | .mk _ r _ _ _ _ _ => r

def KindD.optional : KindD → List (String × Value)
  | .mk _ _ o _ _ _ _ => o

def KindD.types : KindD → List (String × TypeSpec)
  | .mk _ _ _ t _ _ _ => t

def KindD.compared : KindD → List String
  | .mk _ _ _ _ c _ _ => c

def KindD.printed : KindD → List String
  | .mk _ _ _ _ _ p _ => p

def KindD.unlisted : KindD → Option UPol
  | .mk _ _ _ _ _ _ u => u

def Inst.kind : Inst → KindD
  | .mk k _ => k

def Inst.attrs : Inst → List (String × Value)
  | .mk _ a => a

/-- First-match lookup in an association list (agrees with Python dict
lookup because the pipeline keeps keys duplicate-free). -/
def alookup {α : Type} : List (String × α) → String → Option α
  | [], _ => none
  | (k, v) :: rest, key => if k = key then some v else alookup rest key

/-- `d.get(k)`: Python `dict.get` returns None when the key is absent. -/
def dget (l : List (String × Value)) (k : String) : Value :=
  (alookup l k).getD .vnone

def hasKey {α : Type} (l : List (String × α)) (k : String) : Bool :=
  (alookup l k).isSome

def keysOf {α : Type} (l : List (String × α)) : List String :=
  l.map Prod.fst

/-- `d[k] = v` on a dict modelled as an association list: replace the
binding in place or append a new one.  Preserves key uniqueness. -/
def updState : List (String × Value) → String → Value → List (String × Value)
  | [], k, v => [(k, v)]
  | (k1, v1) :: rest, k, v =>
      if k1 = k then (k1, v) :: rest else (k1, v1) :: updState rest k v

/-- `base.update(upds)` on dicts: apply every binding of `upds` over `base`. -/
def updateAll (base : List (String × Value)) (upds : List (String × Value)) :
    List (String × Value) :=
  upds.foldl (fun m kv => updState m kv.1 kv.2) base

/-- The `self._reserved` list assigned in `__init__`. -/
def reservedNames : List String :=
  ["_reserved", "_required", "_optional", "_listed", "_changed", "_compared",
   "_types", "_unlisted", "_printed"]

/-- The bookkeeping attributes `__init__` stores on the instance itself. -/
def internalNames : List String := ["_reserved", "_compared", "_printed"]

/-- `MetaObject._listed`: the required fields followed by the remaining
optional and typed fields.  Python builds the tail as a set (arbitrary
order, no duplicates); the construction pipeline only ever tests
membership in `_listed`, for which this list is equivalent. -/
def listedOf (K : KindD) : List String :=
  K.required ++
    (keysOf K.optional ++ keysOf K.types).filter
      (fun k => !(K.required.contains k))

/-- `self._compared = self._compared or self._required` (line 120). -/
def resolveCompared (K : KindD) : List String :=
  if K.compared = [] then K.required else K.compared

/-- `self._printed = self._printed or self._required` (line 121). -/
def resolvePrinted (K : KindD) : List String :=
  if K.printed = [] then K.required else K.printed

def encodeStrs (l : List String) : Value :=
  .vlist (l.map .vstr)

/-- `vars(obj)` for a constructed instance: the data attributes plus the
bookkeeping attributes `__init__` stored in `self.__dict__`. -/
def varsOf (i : Inst) : List (String × Value) :=
  i.attrs ++
    [("_reserved", encodeStrs reservedNames),
     ("_compared", encodeStrs (resolveCompared i.kind)),
     ("_printed", encodeStrs (resolvePrinted i.kind))]

/-- `k[0] == '_'`: the key's first character is an underscore. -/
def underscoreKey (k : String) : Bool :=
  match k.toList with
  | '_' :: _ => true
  | _ => false

/-- The key filter of `MetaObject.items`: `k[0] != '_' and k not in
self._reserved`. -/
def isDataKeyB (k : String) : Bool :=
  !(underscoreKey k) && !(reservedNames.contains k)

/-- `MetaObject.items()`: the non-underscore, non-reserved attributes. -/
def itemsOf (i : Inst) : List (String × Value) :=
  i.attrs.filter (fun kv => isDataKeyB kv.1)

theorem sizeOf_alookup {l : List (String × Value)} {k : String} {v : Value}
    (h : alookup l k = some v) : sizeOf v < sizeOf l := by
  induction l with
  | nil => simp [alookup] at h
  | cons kv rest ih =>
    obtain ⟨k1, v1⟩ := kv
    rw [alookup] at h
    by_cases hk : k1 = k
    · simp [hk] at h
      subst h
      simp
      omega
    · simp [hk] at h
      have := ih h
      simp
      omega

theorem one_le_sizeOf_list (l : List (String × Value)) : 1 ≤ sizeOf l := by
  cases l <;> simp <;> omega

theorem sizeOf_dget (l : List (String × Value)) (k : String) :
    sizeOf (dget l k) ≤ sizeOf l := by
  rw [dget]
  cases h : alookup l k with
  | none =>
    simp
    calc sizeOf Value.vnone = 1 := by rfl
    _ ≤ sizeOf l := one_le_sizeOf_list l
  | some v =>
    simp
    exact Nat.le_of_lt (sizeOf_alookup h)

theorem sizeOf_resolveCompared (K : KindD) :
    sizeOf (resolveCompared K) < sizeOf K := by
  cases K with
  | mk n r o t c p u =>
    rw [resolveCompared]
    split <;> simp [KindD.required, KindD.compared] <;> omega

/-- `v == None` for a Python value (True exactly when the value is None). -/
def noneEqB : Value → Bool
  | .vnone => true
  | _ => false

/-- Equality of two Python dicts' key sets (membership both ways). -/
def sameKeySet (a b : List String) : Bool :=
  a.all (fun k => b.contains k) && b.all (fun k => a.contains k)

mutual
/-- Python `==` on the modelled values.  Dicts compare as maps (equal key
sets and pairwise-equal values); MetaObject instances compare via
`MetaObject.__eq__` (lines 154-158): same class, then
`dict(self._compared_items()) == dict(other._compared_items())`, where
`_compared_items` reads `self.__dict__.get(k)` for each `k` in the
instance's resolved `_compared` list. -/
def valueEq : Value → Value → Bool
  | .vnone, .vnone => true
  | .vint a, .vint b => a == b
  | .vstr a, .vstr b => a == b
  | .vdatetime a, .vdatetime b => a == b
  | .vlist a, .vlist b => valuesEq a b
  | .vdict a, .vdict b => sameKeySet (keysOf a) (keysOf b) && pairsEqIn a b
  | .vobj (.mk kx ax), .vobj (.mk ky ay) =>
      KindD.name kx == KindD.name ky
        && sameKeySet (resolveCompared kx) (resolveCompared ky)
        && comparedEq (resolveCompared kx) ax ay
  | .vforeign none, .vforeign none => true
  | .vforeign (some a), .vforeign (some b) => valueEq a b
  | _, _ => false
termination_by v w => sizeOf v + sizeOf w
decreasing_by
  all_goals simp_wf
  all_goals first
    | omega
    | (have h1 := sizeOf_resolveCompared kx
       omega)
/-- Elementwise Python `==` of two lists. -/
def valuesEq : List Value → List Value → Bool
  | [], [] => true
  | v :: vs, w :: ws => valueEq v w && valuesEq vs ws
  | _, _ => false
termination_by a b => sizeOf a + sizeOf b
decreasing_by all_goals simp_wf <;> omega
/-- Every binding of the first dict compares equal to the second dict's
value at the same key (used after key sets are known equal). -/
def pairsEqIn : List (String × Value) → List (String × Value) → Bool
  | [], _ => true
  | (k, v) :: rest, b => atKeyEq v k b && pairsEqIn rest b
termination_by a b => sizeOf a + sizeOf b
decreasing_by all_goals simp_wf <;> omega
/-- Compare `v` against the value of `b` at key `k` (an absent key reads
as None, as `dict.get` does). -/
def atKeyEq : Value → String → List (String × Value) → Bool
  | v, _, [] => noneEqB v
  | v, k, (k2, w) :: rest => if k2 = k then valueEq v w else atKeyEq v k rest
termination_by v k l => sizeOf v + sizeOf l
decreasing_by all_goals simp_wf <;> omega
/-- Pairwise comparison of the `_compared` attribute values of two
attribute stores. -/
def comparedEq : List String → List (String × Value) → List (String × Value) → Bool
  | [], _, _ => true
  | k :: ks, ax, ay => atKeyEq (dget ax k) k ay && comparedEq ks ax ay
termination_by ks ax ay => sizeOf ks + sizeOf ax + sizeOf ay
decreasing_by
  all_goals simp_wf
  all_goals first
    | omega
    | (have h1 := sizeOf_dget ax k
       omega)
end

/-- `MetaObject.__eq__` (lines 154-158) as a relation on instances. -/
def instEq (x y : Inst) : Bool :=
  valueEq (.vobj x) (.vobj y)

def digitVal (c : Char) : Option Nat :=
  if c = '0' then some 0 else if c = '1' then some 1 else if c = '2' then some 2
  else if c = '3' then some 3 else if c = '4' then some 4 else if c = '5' then some 5
  else if c = '6' then some 6 else if c = '7' then some 7 else if c = '8' then some 8
  else if c = '9' then some 9 else none

def digitsAux (acc : Nat) : List Char → Option Nat
  | [] => some acc
  | c :: cs =>
      match digitVal c with
      | some d => digitsAux (acc * 10 + d) cs
      | none => none

def digitsToNat : List Char → Option Nat
  | [] => none
  | cs => digitsAux 0 cs

/-- Python `int(s)` on a string: an optional sign followed by decimal
digits parses, anything else raises ValueError. -/
def pyIntOfString (s : String) : Option Int :=
  match s.toList with
  | '-' :: cs => (digitsToNat cs).map (fun n => -(n : Int))
  | '+' :: cs => (digitsToNat cs).map (fun n => (n : Int))
  | cs => (digitsToNat cs).map (fun n => (n : Int))

/-- `int(v)` / `str(v)` for the declared scalar constructors.  `int`
accepts ints and decimal strings and raises on everything else (including
None); `str` renders ints and passes strings through; the remaining value
shapes are outside what any claim exercises and are modelled as errors. -/
def ctorApply : Ctor → Value → Except PErr Value
  | .cint, .vint n => .ok (.vint n)
  | .cint, .vstr s =>
      match pyIntOfString s with
      | some n => .ok (.vint n)
      | none => .error (.intParseFail s)
  | .cint, v => .error (.notCoercible .cint v)
  | .cstr, .vstr s => .ok (.vstr s)
  | .cstr, .vint n => .ok (.vstr (toString n))
  | .cstr, v => .error (.notCoercible .cstr v)

/-- `C()`: the type's zero-value instance (`int() = 0`, `str() = ""`). -/
def ctorZero : Ctor → Value
  | .cint => .vint 0
  | .cstr => .vstr ""

/-- Python iteration of `value` as performed by `map(C, value)`: lists
yield their elements, strings their characters, dicts their keys; other
values are not iterable and raise TypeError. -/
def iterElems : Value → Except PErr (List Value)
  | .vlist vs => .ok vs
  | .vstr s => .ok (s.toList.map (fun ch => .vstr (String.mk [ch])))
  | .vdict kvs => .ok (kvs.map (fun kv => Value.vstr kv.1))
  | v => .error (.notIterable v)

/-- `map(C, elems)` (eager in Python 2) with exception propagation. -/
def ctorMapList (c : Ctor) : List Value → Except PErr (List Value)
  | [] => .ok []
  | v :: rest =>
      match ctorApply c v with
      | .error e => .error e
      | .ok w =>
          match ctorMapList c rest with
          | .error e => .error e
          | .ok ws => .ok (w :: ws)

/-- `MetaObject._instantiate` (lines 135-146) together with its log
output.  `[C]` specs build `map(C, value)` when the value is not None and
`[]` otherwise; scalar specs build `C(value)` when the value is not None
and `C()` otherwise.  Any failure is logged via `logger.error` with the
constructor spec, the attribute name and the value, then re-raised
unchanged (bare `raise`). -/
def instantiateFull (ts : TypeSpec) (attr : String) (v : Value) :
    Except PErr Value × List LogEntry :=
  match ts with
  | .listOf c =>
      if noneEqB v then (.ok (.vlist []), [])
      else
        match iterElems v with
        | .error e => (.error e, [.coercionFailure ts attr v])
        | .ok es =>
            match ctorMapList c es with
            | .error e => (.error e, [.coercionFailure ts attr v])
            | .ok ws => (.ok (.vlist ws), [])
  | .scalar c =>
      if noneEqB v then (.ok (ctorZero c), [])
      else
        match ctorApply c v with
        | .error e => (.error e, [.coercionFailure ts attr v])
        | .ok w => (.ok w, [])

/-- `MetaObject._instantiate` as seen by the construction pipeline. -/
def instantiateAttr (ts : TypeSpec) (attr : String) (v : Value) : Except PErr Value :=
  (instantiateFull ts attr v).1

/-- Lines 80-91: normalize the construction argument to a keyword mapping.
A dict is copied, an object with a `__dict__` contributes `vars(obj)`
(only instances have one among the modelled values), None falls back to
`self._optional`, anything else raises TypeError. -/
def normalizeInput (K : KindD) (obj : Value) : Except PErr (List (String × Value)) :=
  match obj with
  | .vdict kvs => .ok kvs
  | .vobj i => .ok (varsOf i)
  | .vnone => .ok K.optional
  | v => .error (.invalidInput v)

/-- Lines 96-99: the first required attribute absent from the mapping. -/
def firstMissing (req : List String) (kw : List (String × Value)) : Option String :=
  req.find? (fun a => !(hasKey kw a))

/-- Lines 96-99: raise AttributeError naming the attribute and the
original input when a required attribute is missing. -/
def checkRequired (K : KindD) (obj : Value) (kw : List (String × Value)) :
    Except PErr Unit :=
  match firstMissing K.required kw with
  | some a => .error (.missingAttr a obj)
  | none => .ok ()

/-- The first input key outside `self._listed`. -/
def firstUnlisted (K : KindD) (kw : List (String × Value)) : Option String :=
  (keysOf kw).find? (fun k => !((listedOf K).contains k))

/-- Lines 101-108: the `_unlisted` policy.  None lets everything through,
'del' removes the unlisted keys, 'raise' fails with AttributeError on the
first unlisted key. -/
def applyPolicy (K : KindD) (kw : List (String × Value)) :
    Except PErr (List (String × Value)) :=
  match K.unlisted with
  | none => .ok kw
  | some .udel => .ok (kw.filter (fun kv => (listedOf K).contains kv.1))
  | some .uraise =>
      match firstUnlisted K kw with
      | some k => .error (.unlistedAttr k)
      | none => .ok kw

/-- Lines 113-117: for every typed attribute, read its current value with
`getattr` (AttributeError when absent) and store back the coerced value. -/
def coerceLoop : List (String × TypeSpec) → List (String × Value) →
    Except PErr (List (String × Value))
  | [], attrs => .ok attrs
  | (a, ts) :: rest, attrs =>
      match alookup attrs a with
      | none => .error (.getattrFail a)
      | some v =>
          match instantiateAttr ts a v with
          | .error e => .error e
          | .ok w => coerceLoop rest (updState attrs a w)

/-- `MetaObject.__init__` (lines 80-123): normalize the input, check the
required attributes, apply the unlisted policy, seed the attributes with
the optional defaults and overlay the input, then coerce every typed
attribute.  The bookkeeping attributes `_reserved`/`_compared`/`_printed`
that the code finally stores on the instance are represented by the kind
itself (they are reattached by `varsOf`), so they are filtered out of the
data attribute store. -/
def construct (K : KindD) (obj : Value) : Except PErr Inst :=
  match normalizeInput K obj with
  | .error e => .error e
  | .ok kwargs =>
      match checkRequired K obj kwargs with
      | .error e => .error e
      | .ok _ =>
          match applyPolicy K kwargs with
          | .error e => .error e
          | .ok kwargs2 =>
              match coerceLoop K.types (updateAll (updateAll [] K.optional) kwargs2) with
              | .error e => .error e
              | .ok attrs1 =>
                  .ok (.mk K (attrs1.filter (fun kv => !(internalNames.contains kv.1))))

/-- The predicate `changed_key` inside `MetaObject._changed` (lines
210-223).  Note the exception handler: when re-deriving the coerced
default fails, `trial` is set to True and `not trial` — i.e. False, "not
changed" — is returned. -/
def changedKey (K : KindD) (k : String) (v : Value) : Bool :=
  if K.required.contains k then
    true
  else if (keysOf K.optional).contains k then
    if (keysOf K.types).contains k then
      match alookup K.types k with
      | some ts =>
          match instantiateAttr ts k (dget K.optional k) with
          | .ok d => !(valueEq v d)
          | .error _ => !true
      | none => false
    else !(valueEq v (dget K.optional k))
  else !(reservedNames.contains k)

/-- `MetaObject._changed` (lines 207-225): the attribute names whose
current value is considered changed.  Python iterates `self.__dict__`,
which also holds the three bookkeeping names; those are reserved and never
reported, so iterating the data attributes yields the same list. -/
def changedKeys (i : Inst) : List String :=
  (i.attrs.filter (fun kv => changedKey i.kind kv.1 kv.2)).map Prod.fst

mutual
/-- `object_to_json` (lines 21-49) with its log output: None and plain
mappings pass through, datetimes render as their isoformat, instances
become a mapping of their converted items, objects exposing a truthy
`to_json` return its result, and everything else (ints, strings, raw
lists, foreign objects without `to_json`) logs the offending type and
value and raises ValueError("object_to_json could not serialize
object"). -/
def o2jFull : Value → Except PErr Value × List LogEntry
  | .vnone => (.ok .vnone, [])
  | .vdict kvs => (.ok (.vdict kvs), [])
  | .vdatetime s => (.ok (.vstr s), [])
  | .vobj (.mk _ ax) =>
      match o2jItems ax with
      | (.ok kvs, lg) => (.ok (.vdict kvs), lg)
      | (.error e, lg) => (.error e, lg)
  | .vforeign (some r) => (.ok r, [])
  | v => (.error (.serializationFail v), [.serFailure v])
/-- The loop over `obj.items()` in `object_to_json`: instance values are
converted recursively, list values are converted elementwise, everything
else is stored as-is.  (Filtering to data keys inline is the same as
iterating `items()`.) -/
def o2jItems : List (String × Value) →
    Except PErr (List (String × Value)) × List LogEntry
  | [] => (.ok [], [])
  | (k, v) :: rest =>
      if isDataKeyB k then
        match o2jItemVal v with
        | (.ok w, _) =>
            match o2jItems rest with
            | (.ok ws, lg) => (.ok ((k, w) :: ws), lg)
            | (.error e, lg) => (.error e, lg)
        | (.error e, lg) => (.error e, lg)
      else o2jItems rest
/-- One item value inside the instance branch of `object_to_json`. -/
def o2jItemVal : Value → Except PErr Value × List LogEntry
  | .vobj (.mk _ ax) =>
      match o2jItems ax with
      | (.ok kvs, lg) => (.ok (.vdict kvs), lg)
      | (.error e, lg) => (.error e, lg)
  | .vlist vs =>
      match o2jElems vs with
      | (.ok ws, lg) => (.ok (.vlist ws), lg)
      | (.error e, lg) => (.error e, lg)
  | w => (.ok w, [])
/-- `map(lambda x: object_to_json(x), v)` over a list value's elements. -/
def o2jElems : List Value → Except PErr (List Value) × List LogEntry
  | [] => (.ok [], [])
  | v :: rest =>
      match o2jFull v with
      | (.ok w, _) =>
          match o2jElems rest with
          | (.ok ws, lg) => (.ok (w :: ws), lg)
          | (.error e, lg) => (.error e, lg)
      | (.error e, lg) => (.error e, lg)
end

/-- `object_to_json` as a plain value transform. -/
def object_to_json (v : Value) : Except PErr Value :=
  (o2jFull v).1

mutual
/-- The net data-to-data effect of `json.dumps(·, default=object_to_json)`
followed by `json.loads` (the JSON text codec is the spec's external
primitive and is identity on plain data): ints, strings, None pass
through, lists and dicts are walked natively, and every other node is
first handed to `object_to_json` (the `default` hook) and its result
walked further.  A datetime therefore renders as its isoformat string, an
instance as the dict of its converted items, a foreign object as its
walked `to_json` result, and a foreign object without `to_json` raises. -/
def encodeJson : Value → Except PErr Value
  | .vnone => .ok .vnone
  | .vint n => .ok (.vint n)
  | .vstr s => .ok (.vstr s)
  | .vdatetime s => .ok (.vstr s)
  | .vlist vs =>
      match encodeList vs with
      | .error e => .error e
      | .ok ws => .ok (.vlist ws)
  | .vdict kvs =>
      match encodePairs kvs with
      | .error e => .error e
      | .ok ws => .ok (.vdict ws)
  | .vobj (.mk _ ax) =>
      match encodeInstItems ax with
      | .error e => .error e
      | .ok ws => .ok (.vdict ws)
  | .vforeign (some r) => encodeJson r
  | .vforeign none => .error (.serializationFail (.vforeign none))
termination_by v => 3 * sizeOf v
decreasing_by all_goals simp_wf <;> omega
/-- Elements of a list reached by the `json.dumps` walk. -/
def encodeList : List Value → Except PErr (List Value)
  | [] => .ok []
  | v :: rest =>
      match encodeJson v with
      | .error e => .error e
      | .ok w =>
          match encodeList rest with
          | .error e => .error e
          | .ok ws => .ok (w :: ws)
termination_by l => 3 * sizeOf l
decreasing_by all_goals simp_wf <;> omega
/-- Values of a dict reached by the `json.dumps` walk. -/
def encodePairs : List (String × Value) → Except PErr (List (String × Value))
  | [] => .ok []
  | (k, v) :: rest =>
      match encodeJson v with
      | .error e => .error e
      | .ok w =>
          match encodePairs rest with
          | .error e => .error e
          | .ok ws => .ok ((k, w) :: ws)
termination_by l => 3 * sizeOf l
decreasing_by all_goals simp_wf <;> omega
/-- The items of an instance reached through the `default` hook: the
instance branch of `object_to_json` converts them (instances and lists
eagerly, the rest raw) and the `json.dumps` walk then continues into the
produced dict. -/
def encodeInstItems : List (String × Value) → Except PErr (List (String × Value))
  | [] => .ok []
  | (k, v) :: rest =>
      if isDataKeyB k then
        match encodeItemVal v with
        | .error e => .error e
        | .ok w =>
            match encodeInstItems rest with
            | .error e => .error e
            | .ok ws => .ok ((k, w) :: ws)
      else encodeInstItems rest
termination_by l => 3 * sizeOf l
decreasing_by all_goals simp_wf <;> omega
/-- One instance item value: nested instances become their converted item
dict, list values have `object_to_json` mapped over their elements (so
scalar elements raise) and the walk continues, all other values are
stored raw and handled by the continuing `json.dumps` walk. -/
def encodeItemVal : Value → Except PErr Value
  | .vobj (.mk _ ax) =>
      match encodeInstItems ax with
      | .error e => .error e
      | .ok ws => .ok (.vdict ws)
  | .vlist vs =>
      match encodeElems vs with
      | .error e => .error e
      | .ok ws => .ok (.vlist ws)
  | v => encodeJson v
termination_by v => 3 * sizeOf v + 1
decreasing_by all_goals simp_wf <;> omega
/-- Elements of a list attribute of an instance: each is passed through
`object_to_json` (None and dicts survive, instances convert, datetimes
render, foreign objects yield their `to_json` result, ints, strings,
nested lists and to_json-less foreign objects raise) and the `json.dumps`
walk then continues on the result. -/
def encodeElems : List Value → Except PErr (List Value)
  | [] => .ok []
  | v :: rest =>
      match encodeElem v with
      | .error e => .error e
      | .ok w =>
          match encodeElems rest with
          | .error e => .error e
          | .ok ws => .ok (w :: ws)
termination_by l => 3 * sizeOf l
decreasing_by all_goals simp_wf <;> omega
/-- A single list element inside an instance attribute. -/
def encodeElem : Value → Except PErr Value
  | .vnone => .ok .vnone
  | .vdict kvs =>
      match encodePairs kvs with
      | .error e => .error e
      | .ok ws => .ok (.vdict ws)
  | .vobj (.mk _ ax) =>
      match encodeInstItems ax with
      | .error e => .error e
      | .ok ws => .ok (.vdict ws)
  | .vdatetime s => .ok (.vstr s)
  | .vforeign (some r) => encodeJson r
  | v => .error (.serializationFail v)
termination_by v => 3 * sizeOf v + 1
decreasing_by all_goals simp_wf <;> omega
end

/-- `x.dumps()` up to the external JSON text codec: the plain data that
`json.dumps(self.to_json(), default=object_to_json)` serializes and
`json.loads` gives back. -/
def dumpsJson (x : Inst) : Except PErr Value :=
  encodeJson (.vobj x)

/-- `kind.loads(x.dumps())` (lines 247-259): serialize `x`, parse the text
back (identity on the plain data) and run the construction pipeline. -/
def loadsDumps (K : KindD) (x : Inst) : Except PErr Inst :=
  match dumpsJson x with
  | .error e => .error e
  | .ok j => construct K j

/-- The first option when present, otherwise the second. -/
def oElse {α : Type} : Option α → Option α → Option α
  | some v, _ => some v
  | none, b => b

/-- No string occurs twice in the list (Python dict keys are unique). -/
def nodupKeysB : List String → Bool
  | [] => true
  | k :: ks => !(ks.contains k) && nodupKeysB ks

mutual
/-- Representation well-formedness: every dict and every instance
attribute store in the value has duplicate-free keys, as real Python
dicts do. -/
def valueWF : Value → Bool
  | .vnone => true
  | .vint _ => true
  | .vstr _ => true
  | .vdatetime _ => true
  | .vlist vs => valuesWF vs
  | .vdict kvs => nodupKeysB (keysOf kvs) && pairsWF kvs
  | .vobj (.mk _ ax) => nodupKeysB (keysOf ax) && pairsWF ax
  | .vforeign none => true
  | .vforeign (some r) => valueWF r
def valuesWF : List Value → Bool
  | [] => true
  | v :: vs => valueWF v && valuesWF vs
def pairsWF : List (String × Value) → Bool
  | [] => true
  | (_, v) :: rest => valueWF v && pairsWF rest
end

/-- The value is a Python int or a Python str. -/
def scalarShape (v : Value) : Prop :=
  (∃ n, v = Value.vint n) ∨ (∃ s, v = Value.vstr s)

/-- The `Point` entity kind of the spec scenario: `required = (x, y)`,
`types = {x: int, y: int}`. -/
def PointKind : KindD :=
  .mk "Point" ["x", "y"] [] [("x", .scalar .cint), ("y", .scalar .cint)] [] [] none

/-- `Point({"x": 1, "y": 2})`. -/
def pointInst : Inst := .mk PointKind [("x", .vint 1), ("y", .vint 2)]

/-- A kind with an optional typed attribute whose declared default `"abc"`
cannot be coerced by `int`. -/
def BadDefaultKind : KindD :=
  .mk "BadDefault" [] [("t", .vstr "abc")] [("t", .scalar .cint)] [] [] none

/-- A kind with `unlisted = 'raise'` and one required attribute. -/
def RaiseKind : KindD :=
  .mk "RaiseKind" ["x"] [] [] [] [] (some .uraise)

/-- A kind whose optional typed attribute has the string default `"5"`,
which `int` coerces to the int 5. -/
def CoercedDefaultKind : KindD :=
  .mk "CoercedDefault" [] [("x", .vstr "5")] [("x", .scalar .cint)] [] [] none

/-- A kind with `unlisted = 'del'` and one required attribute. -/
def DropKind : KindD :=
  .mk "DropKind" ["x"] [] [] [] [] (some .udel)

/-- A kind with the ignore policy (unlisted is None). -/
def IgnoreKind : KindD :=
  .mk "IgnoreKind" ["x"] [] [] [] [] none

theorem alookup_append {α : Type} (a b : List (String × α)) (k : String) :
    alookup (a ++ b) k = oElse (alookup a k) (alookup b k) := by
  induction a with
  | nil => simp [alookup, oElse]
  | cons kv rest ih =>
    obtain ⟨k1, v1⟩ := kv
    by_cases h : k1 = k <;> simp [alookup, oElse, h, ih]

theorem alookup_updState (m : List (String × Value)) (k : String) (v : Value)
    (k2 : String) :
    alookup (updState m k v) k2 = if k = k2 then some v else alookup m k2 := by
  induction m with
  | nil =>
    by_cases h : k = k2 <;> simp [updState, alookup, h]
  | cons kv rest ih =>
    obtain ⟨k1, v1⟩ := kv
    rw [updState]
    by_cases h1 : k1 = k
    · subst h1
      by_cases h2 : k1 = k2 <;> simp [alookup, h2]
    · rw [if_neg h1, alookup, alookup]
      by_cases h2 : k1 = k2
      · subst h2
        have : ¬ k = k1 := fun hh => h1 hh.symm
        simp [this]
      · simp [h2, ih]

theorem updState_self (m : List (String × Value)) (k : String) (v : Value)
    (h : alookup m k = some v) : updState m k v = m := by
  induction m with
  | nil => simp [alookup] at h
  | cons kv rest ih =>
    obtain ⟨k1, v1⟩ := kv
    rw [alookup] at h
    by_cases h1 : k1 = k
    · simp [h1] at h
      simp [updState, h1, h]
    · simp [h1] at h
      simp [updState, h1, ih h]

theorem updState_append (m : List (String × Value)) (k : String) (v : Value)
    (h : alookup m k = none) : updState m k v = m ++ [(k, v)] := by
  induction m with
  | nil => simp [updState]
  | cons kv rest ih =>
    obtain ⟨k1, v1⟩ := kv
    rw [alookup] at h
    by_cases h1 : k1 = k
    · simp [h1] at h
    · simp [h1] at h
      simp [updState, h1, ih h]

theorem keysOf_updState_some (m : List (String × Value)) (k : String) (v : Value)
    (h : (alookup m k).isSome) : keysOf (updState m k v) = keysOf m := by
  induction m with
  | nil => simp [alookup] at h
  | cons kv rest ih =>
    obtain ⟨k1, v1⟩ := kv
    rw [alookup] at h
    by_cases h1 : k1 = k
    · simp [updState, h1, keysOf]
    · simp [h1] at h
      simp [updState, h1, keysOf] at ih ⊢
      exact ih h

theorem mem_of_alookup {α : Type} {m : List (String × α)} {k : String} {v : α}
    (h : alookup m k = some v) : (k, v) ∈ m := by
  induction m with
  | nil => simp [alookup] at h
  | cons kv rest ih =>
    obtain ⟨k1, v1⟩ := kv
    rw [alookup] at h
    by_cases h1 : k1 = k
    · subst h1
      simp at h
      simp [h]
    · simp [h1] at h
      exact List.mem_cons_of_mem _ (ih h)

theorem alookup_isSome_of_mem {α : Type} {m : List (String × α)} {k : String}
    {v : α} (h : (k, v) ∈ m) : (alookup m k).isSome := by
  induction m with
  | nil => simp at h
  | cons kv rest ih =>
    obtain ⟨k1, v1⟩ := kv
    rcases List.mem_cons.mp h with h2 | h2
    · rw [alookup]
      have hk : k1 = k := by cases h2; rfl
      simp [hk]
    · rw [alookup]
      by_cases h1 : k1 = k <;> simp [h1, ih h2]

theorem alookup_of_mem_nodup {m : List (String × Value)} {k : String} {v : Value}
    (hn : nodupKeysB (keysOf m) = true) (h : (k, v) ∈ m) : alookup m k = some v := by
  induction m with
  | nil => simp at h
  | cons kv rest ih =>
    obtain ⟨k1, v1⟩ := kv
    simp only [keysOf, List.map_cons] at hn
    rw [nodupKeysB, Bool.and_eq_true] at hn
    rcases List.mem_cons.mp h with h2 | h2
    · rw [Prod.mk.injEq] at h2
      obtain ⟨e1, e2⟩ := h2
      subst e1; subst e2
      simp [alookup]
    · rw [alookup]
      by_cases h1 : k1 = k
      · subst h1
        exfalso
        have hmem : k1 ∈ List.map Prod.fst rest := List.mem_map.mpr ⟨(k1, v), h2, rfl⟩
        have hc := hn.1
        simp at hc
        exact hc v h2
      · simp [h1]
        have hn2 : nodupKeysB (keysOf rest) = true := by
          rw [keysOf]; exact hn.2
        exact ih hn2 h2

theorem alookup_filter_key (m : List (String × Value)) (p : String → Bool)
    (k : String) :
    alookup (m.filter (fun kv => p kv.1)) k =
      if p k then alookup m k else none := by
  induction m with
  | nil => by_cases h : p k <;> simp [alookup, h]
  | cons kv rest ih =>
    obtain ⟨k1, v1⟩ := kv
    by_cases h1 : k1 = k
    · subst h1
      by_cases hp : p k1 <;> simp [List.filter, alookup, hp, ih]
    · by_cases hp : p k1 <;> by_cases hpk : p k <;>
        simp [List.filter, alookup, hp, hpk, h1, ih]

theorem alookup_eq_none {α : Type} (m : List (String × α)) (k : String) :
    alookup m k = none ↔ k ∉ keysOf m := by
  induction m with
  | nil => simp [alookup, keysOf]
  | cons kv rest ih =>
    obtain ⟨k1, v1⟩ := kv
    rw [alookup]
    simp only [keysOf, List.map_cons, List.mem_cons]
    by_cases h1 : k1 = k
    · subst h1
      simp
    · rw [if_neg h1]
      simp only [keysOf] at ih
      rw [ih]
      constructor
      · intro h hc
        rcases hc with hc | hc
        · exact h1 hc.symm
        · exact h hc
      · intro h hc
        exact h (Or.inr hc)

theorem alookup_isSome_iff {α : Type} (m : List (String × α)) (k : String) :
    (alookup m k).isSome = true ↔ k ∈ keysOf m := by
  constructor
  · intro h
    by_contra hc
    rw [(alookup_eq_none m k).mpr hc] at h
    simp at h
  · intro h
    cases hh : alookup m k with
    | none => exact absurd h ((alookup_eq_none m k).mp hh)
    | some v => simp [hh]

theorem alookup_none_of_contains_false {α : Type} {rest : List (String × α)} {k1 : String}
    (hc : ((keysOf rest).contains k1) = false) : alookup rest k1 = none := by
  rw [alookup_eq_none]
  intro hmem
  simp [hmem] at hc

theorem nodupKeysB_append_single {l : List String} {k : String}
    (hn : nodupKeysB l = true) (hk : k ∉ l) : nodupKeysB (l ++ [k]) = true := by
  induction l with
  | nil => simp [nodupKeysB]
  | cons a rest ih =>
    rw [nodupKeysB, Bool.and_eq_true] at hn
    rw [List.cons_append, nodupKeysB, Bool.and_eq_true]
    refine ⟨?_, ih hn.2 (fun h => hk (List.mem_cons_of_mem a h))⟩
    have ha : a ∉ rest := by
      have := hn.1
      simpa using this
    have hak : ¬ a = k := fun h => hk (h ▸ List.mem_cons_self a rest)
    simp [ha, hak]

theorem nodupKeysB_updState {m : List (String × Value)} (k : String) (v : Value)
    (hn : nodupKeysB (keysOf m) = true) :
    nodupKeysB (keysOf (updState m k v)) = true := by
  cases hh : alookup m k with
  | some w =>
    rw [keysOf_updState_some m k v (by simp [hh])]
    exact hn
  | none =>
    rw [updState_append m k v hh]
    have : keysOf (m ++ [(k, v)]) = keysOf m ++ [k] := by
      simp [keysOf]
    rw [this]
    exact nodupKeysB_append_single hn ((alookup_eq_none m k).mp hh)

theorem nodupKeysB_updateAll {base upds : List (String × Value)}
    (hn : nodupKeysB (keysOf base) = true) :
    nodupKeysB (keysOf (updateAll base upds)) = true := by
  induction upds generalizing base with
  | nil => exact hn
  | cons kv rest ih =>
    obtain ⟨k1, v1⟩ := kv
    rw [updateAll, List.foldl_cons]
    exact ih (nodupKeysB_updState k1 v1 hn)

theorem alookup_updateAll {upds : List (String × Value)}
    (hn : nodupKeysB (keysOf upds) = true) (base : List (String × Value))
    (k : String) :
    alookup (updateAll base upds) k = oElse (alookup upds k) (alookup base k) := by
  induction upds generalizing base with
  | nil => simp [updateAll, alookup, oElse]
  | cons kv rest ih =>
    obtain ⟨k1, v1⟩ := kv
    simp only [keysOf, List.map_cons] at hn
    rw [nodupKeysB, Bool.and_eq_true] at hn
    rw [updateAll, List.foldl_cons]
    have step : List.foldl (fun m kv => updState m kv.1 kv.2) (updState base k1 v1) rest
        = updateAll (updState base k1 v1) rest := rfl
    rw [step, ih (by rw [keysOf]; exact hn.2)]
    by_cases h1 : k1 = k
    · subst h1
      have hr : alookup rest k1 = none :=
        alookup_none_of_contains_false (by rw [keysOf]; simpa using hn.1)
      rw [hr, alookup, if_pos rfl, alookup_updState]
      simp [oElse]
    · rw [alookup, if_neg h1, alookup_updState, if_neg h1]

theorem updateAll_disjoint {upds : List (String × Value)}
    (hn : nodupKeysB (keysOf upds) = true) (base : List (String × Value))
    (hd : ∀ k, k ∈ keysOf upds → alookup base k = none) :
    updateAll base upds = base ++ upds := by
  induction upds generalizing base with
  | nil => simp [updateAll]
  | cons kv rest ih =>
    obtain ⟨k1, v1⟩ := kv
    simp only [keysOf, List.map_cons] at hn hd
    rw [nodupKeysB, Bool.and_eq_true] at hn
    rw [updateAll, List.foldl_cons]
    have step : List.foldl (fun m kv => updState m kv.1 kv.2) (updState base k1 v1) rest
        = updateAll (updState base k1 v1) rest := rfl
    rw [step, updState_append base k1 v1 (hd k1 (List.mem_cons_self _ _))]
    have hd2 : ∀ k, k ∈ keysOf rest → alookup (base ++ [(k1, v1)]) k = none := by
      intro k hk
      rw [alookup_append]
      have hb : alookup base k = none := hd k (by simp [keysOf] at hk ⊢; exact Or.inr hk)
      have hk1 : ¬ k1 = k := by
        intro h
        subst h
        have hc : (keysOf rest).contains k1 = false := by
          rw [keysOf]; simpa using hn.1
        simp [hk] at hc
      simp [hb, alookup, hk1, oElse]
    rw [ih (by rw [keysOf]; exact hn.2) _ hd2, List.append_assoc]
    rfl

theorem updateAll_nil {upds : List (String × Value)}
    (hn : nodupKeysB (keysOf upds) = true) : updateAll [] upds = upds := by
  rw [updateAll_disjoint hn [] (fun k _ => by rw [alookup])]
  rfl

theorem coerceLoop_none {tys : List (String × TypeSpec)}
    {attrs out : List (String × Value)} (hok : coerceLoop tys attrs = .ok out)
    {a : String} (ha : alookup tys a = none) : alookup out a = alookup attrs a := by
  induction tys generalizing attrs with
  | nil =>
    rw [coerceLoop] at hok
    cases hok
    rfl
  | cons p rest ih =>
    obtain ⟨a1, ts1⟩ := p
    rw [alookup] at ha
    by_cases h1 : a1 = a
    · simp [h1] at ha
    · simp only [h1, if_false] at ha
      rw [coerceLoop] at hok
      cases hv : alookup attrs a1 with
      | none => simp [hv] at hok
      | some v =>
        simp only [hv] at hok
        cases hw : instantiateAttr ts1 a1 v with
        | error e => simp [hw] at hok
        | ok w =>
          simp only [hw] at hok
          rw [ih hok ha, alookup_updState, if_neg h1]

theorem coerceLoop_keys {tys : List (String × TypeSpec)}
    {attrs out : List (String × Value)} (hok : coerceLoop tys attrs = .ok out) :
    keysOf out = keysOf attrs := by
  induction tys generalizing attrs with
  | nil =>
    rw [coerceLoop] at hok
    cases hok
    rfl
  | cons p rest ih =>
    obtain ⟨a1, ts1⟩ := p
    rw [coerceLoop] at hok
    cases hv : alookup attrs a1 with
    | none => simp [hv] at hok
    | some v =>
      simp only [hv] at hok
      cases hw : instantiateAttr ts1 a1 v with
      | error e => simp [hw] at hok
      | ok w =>
        simp only [hw] at hok
        rw [ih hok, keysOf_updState_some _ _ _ (by simp [hv])]

theorem coerceLoop_some {tys : List (String × TypeSpec)}
    {attrs out : List (String × Value)} (hok : coerceLoop tys attrs = .ok out)
    (hn : nodupKeysB (keysOf tys) = true) {a : String} {ts : TypeSpec}
    (ha : alookup tys a = some ts) :
    ∃ v w, alookup attrs a = some v ∧ instantiateAttr ts a v = .ok w ∧
      alookup out a = some w := by
  induction tys generalizing attrs with
  | nil => rw [alookup] at ha; cases ha
  | cons p rest ih =>
    obtain ⟨a1, ts1⟩ := p
    simp only [keysOf, List.map_cons] at hn
    rw [nodupKeysB, Bool.and_eq_true] at hn
    rw [coerceLoop] at hok
    cases hv : alookup attrs a1 with
    | none => simp [hv] at hok
    | some v =>
      simp only [hv] at hok
      cases hw : instantiateAttr ts1 a1 v with
      | error e => simp [hw] at hok
      | ok w =>
        simp only [hw] at hok
        rw [alookup] at ha
        by_cases h1 : a1 = a
        · subst h1
          simp at ha
          subst ha
          refine ⟨v, w, hv, hw, ?_⟩
          have hrest : alookup rest a1 = none :=
            alookup_none_of_contains_false (by rw [keysOf]; simpa using hn.1)
          rw [coerceLoop_none hok hrest, alookup_updState, if_pos rfl]
        · simp only [h1, if_false] at ha
          obtain ⟨v2, w2, hv2, hw2, hout⟩ :=
            ih hok (by rw [keysOf]; exact hn.2) ha
          rw [alookup_updState, if_neg h1] at hv2
          exact ⟨v2, w2, hv2, hw2, hout⟩

theorem coerceLoop_intro {tys : List (String × TypeSpec)}
    {attrs : List (String × Value)} (hn : nodupKeysB (keysOf tys) = true)
    (h : ∀ a ts, alookup tys a = some ts →
      ∃ v, alookup attrs a = some v ∧ ∃ w, instantiateAttr ts a v = .ok w) :
    ∃ out, coerceLoop tys attrs = .ok out := by
  induction tys generalizing attrs with
  | nil => exact ⟨attrs, rfl⟩
  | cons p rest ih =>
    obtain ⟨a1, ts1⟩ := p
    simp only [keysOf, List.map_cons] at hn
    rw [nodupKeysB, Bool.and_eq_true] at hn
    obtain ⟨v, hv, w, hw⟩ := h a1 ts1 (by rw [alookup]; simp)
    have hrest : ∀ a ts, alookup rest a = some ts →
        ∃ v2, alookup (updState attrs a1 w) a = some v2 ∧
          ∃ w2, instantiateAttr ts a v2 = .ok w2 := by
      intro a ts hats
      have hne : ¬ a1 = a := by
        intro he
        subst he
        have hmem : a1 ∈ keysOf rest :=
          (alookup_isSome_iff rest a1).mp (by simp [hats])
        have hc : (keysOf rest).contains a1 = false := by
          rw [keysOf]; simpa using hn.1
        simp [hmem] at hc
      obtain ⟨v2, hv2, hw2⟩ := h a ts (by rw [alookup, if_neg hne]; exact hats)
      exact ⟨v2, by rw [alookup_updState, if_neg hne]; exact hv2, hw2⟩
    obtain ⟨out, hout⟩ := ih (by rw [keysOf]; exact hn.2) hrest
    refine ⟨out, ?_⟩
    rw [coerceLoop]
    simp only [hv, hw]
    exact hout

theorem ctorApply_cint_shape {v w : Value} (h : ctorApply .cint v = .ok w) :
    ∃ n, w = Value.vint n := by
  cases v <;> simp [ctorApply] at h
  · exact ⟨_, h.symm⟩
  · rename_i s
    cases hp : pyIntOfString s with
    | none => simp [hp] at h
    | some n => simp only [hp] at h; simp at h; exact ⟨n, h.symm⟩

theorem ctorApply_cstr_shape {v w : Value} (h : ctorApply .cstr v = .ok w) :
    ∃ s, w = Value.vstr s := by
  cases v <;> simp [ctorApply] at h
  · exact ⟨_, h.symm⟩
  · exact ⟨_, h.symm⟩

theorem ctorApply_shape {c : Ctor} {v w : Value} (h : ctorApply c v = .ok w) :
    scalarShape w := by
  cases c with
  | cint => exact Or.inl (ctorApply_cint_shape h)
  | cstr => exact Or.inr (ctorApply_cstr_shape h)

theorem ctorApply_idem {c : Ctor} {v w : Value} (h : ctorApply c v = .ok w) :
    ctorApply c w = .ok w := by
  cases c with
  | cint =>
    obtain ⟨n, hn⟩ := ctorApply_cint_shape h
    subst hn
    rfl
  | cstr =>
    obtain ⟨s, hs⟩ := ctorApply_cstr_shape h
    subst hs
    rfl

theorem ctorMapList_shape {c : Ctor} {es ws : List Value}
    (h : ctorMapList c es = .ok ws) : ∀ w ∈ ws, scalarShape w := by
  induction es generalizing ws with
  | nil =>
    rw [ctorMapList] at h
    cases h
    intro w hw
    simp at hw
  | cons e rest ih =>
    rw [ctorMapList] at h
    cases he : ctorApply c e with
    | error er => simp [he] at h
    | ok w1 =>
      simp only [he] at h
      cases hr : ctorMapList c rest with
      | error er => simp [hr] at h
      | ok ws1 =>
        simp only [hr] at h
        cases h
        intro w hw
        rcases List.mem_cons.mp hw with hw | hw
        · subst hw; exact ctorApply_shape he
        · exact ih hr w hw

theorem ctorMapList_idem {c : Ctor} {es ws : List Value}
    (h : ctorMapList c es = .ok ws) : ctorMapList c ws = .ok ws := by
  induction es generalizing ws with
  | nil =>
    rw [ctorMapList] at h
    cases h
    rfl
  | cons e rest ih =>
    rw [ctorMapList] at h
    cases he : ctorApply c e with
    | error er => simp [he] at h
    | ok w1 =>
      simp only [he] at h
      cases hr : ctorMapList c rest with
      | error er => simp [hr] at h
      | ok ws1 =>
        simp only [hr] at h
        cases h
        rw [ctorMapList, ctorApply_idem he]
        simp only [ih hr]

theorem noneEqB_scalar {v : Value} (h : scalarShape v) : noneEqB v = false := by
  rcases h with ⟨n, hn⟩ | ⟨s, hs⟩ <;> subst_vars <;> rfl

theorem instantiateAttr_scalar_ok {c : Ctor} {a : String} {v w : Value}
    (h : instantiateAttr (.scalar c) a v = .ok w) : scalarShape w := by
  rw [instantiateAttr, instantiateFull] at h
  by_cases hv : noneEqB v = true
  · rw [if_pos hv] at h
    simp at h
    subst h
    cases c with
    | cint => exact Or.inl ⟨0, rfl⟩
    | cstr => exact Or.inr ⟨"", rfl⟩
  · rw [if_neg hv] at h
    cases hc : ctorApply c v with
    | error e => simp [hc] at h
    | ok w1 =>
      simp only [hc] at h
      simp at h
      subst h
      exact ctorApply_shape hc

theorem instantiateAttr_idem {ts : TypeSpec} {a : String} {v w : Value}
    (h : instantiateAttr ts a v = .ok w) : instantiateAttr ts a w = .ok w := by
  cases ts with
  | scalar c =>
    have hs := instantiateAttr_scalar_ok h
    rw [instantiateAttr, instantiateFull] at h ⊢
    rw [if_neg (by rw [noneEqB_scalar hs]; simp)]
    by_cases hv : noneEqB v = true
    · rw [if_pos hv] at h
      simp at h
      subst h
      cases c <;> rfl
    · rw [if_neg hv] at h
      cases hc : ctorApply c v with
      | error e => simp [hc] at h
      | ok w1 =>
        simp only [hc] at h
        simp at h
        subst h
        simp only [ctorApply_idem hc]
  | listOf c =>
    rw [instantiateAttr, instantiateFull] at h
    by_cases hv : noneEqB v = true
    · rw [if_pos hv] at h
      simp at h
      subst h
      rfl
    · rw [if_neg hv] at h
      cases he : iterElems v with
      | error e => simp [he] at h
      | ok es =>
        simp only [he] at h
        cases hm : ctorMapList c es with
        | error e => simp [hm] at h
        | ok ws =>
          simp only [hm] at h
          simp at h
          subst h
          rw [instantiateAttr, instantiateFull]
          have : noneEqB (Value.vlist ws) = false := rfl
          rw [if_neg (by rw [this]; simp)]
          have hit : iterElems (Value.vlist ws) = .ok ws := rfl
          rw [hit]
          simp only [ctorMapList_idem hm]

theorem valueEq_vnone (v : Value) : valueEq v .vnone = noneEqB v := by
  cases v with
  | vnone => simp [valueEq, noneEqB]
  | vint n => simp [valueEq, noneEqB]
  | vstr s => simp [valueEq, noneEqB]
  | vdatetime s => simp [valueEq, noneEqB]
  | vlist vs => simp [valueEq, noneEqB]
  | vdict kvs => simp [valueEq, noneEqB]
  | vobj i => cases i; simp [valueEq, noneEqB]
  | vforeign o => cases o <;> simp [valueEq, noneEqB]

theorem atKeyEq_eq_dget (v : Value) (k : String) (l : List (String × Value)) :
    atKeyEq v k l = valueEq v (dget l k) := by
  induction l with
  | nil => rw [atKeyEq, dget, alookup, Option.getD_none, valueEq_vnone]
  | cons kv rest ih =>
    obtain ⟨k2, w⟩ := kv
    rw [atKeyEq, dget, alookup]
    by_cases h2 : k2 = k
    · simp [h2]
    · simp only [h2, if_false]
      rw [ih, dget]

theorem comparedEq_all (ks : List String) (ax ay : List (String × Value)) :
    comparedEq ks ax ay = ks.all (fun k => valueEq (dget ax k) (dget ay k)) := by
  induction ks with
  | nil => rw [comparedEq]; simp
  | cons k rest ih =>
    rw [comparedEq, atKeyEq_eq_dget, ih]
    simp

theorem sameKeySet_refl (l : List String) : sameKeySet l l = true := by
  rw [sameKeySet]
  simp [List.all_eq_true]

theorem instEq_unfold (kx : KindD) (ax : List (String × Value)) (ky : KindD)
    (ay : List (String × Value)) :
    instEq (.mk kx ax) (.mk ky ay) =
      ((KindD.name kx == KindD.name ky)
        && sameKeySet (resolveCompared kx) (resolveCompared ky)
        && comparedEq (resolveCompared kx) ax ay) := by
  rw [instEq]
  simp only [valueEq]

theorem pairsWF_mem {l : List (String × Value)} (h : pairsWF l = true)
    {kv : String × Value} (hm : kv ∈ l) : valueWF kv.2 = true := by
  induction l with
  | nil => simp at hm
  | cons p rest ih =>
    obtain ⟨k1, v1⟩ := p
    simp only [pairsWF, Bool.and_eq_true] at h
    rcases List.mem_cons.mp hm with hm | hm
    · subst hm
      exact h.1
    · exact ih h.2 hm

mutual
theorem valueEq_refl : ∀ (v : Value), valueWF v = true → valueEq v v = true
  | .vnone, _ => by simp [valueEq]
  | .vint n, _ => by simp [valueEq]
  | .vstr s, _ => by simp [valueEq]
  | .vdatetime s, _ => by simp [valueEq]
  | .vlist vs, h => by
      simp only [valueWF] at h
      simp only [valueEq]
      exact valuesEq_refl vs h
  | .vdict kvs, h => by
      simp only [valueWF, Bool.and_eq_true] at h
      simp only [valueEq, Bool.and_eq_true]
      exact ⟨sameKeySet_refl _,
        pairsEqIn_refl kvs kvs (fun kv hkv => alookup_of_mem_nodup h.1 hkv)
          (fun kv hkv => pairsWF_mem h.2 hkv)⟩
  | .vobj (.mk kk ax), h => by
      simp only [valueWF, Bool.and_eq_true] at h
      simp only [valueEq, Bool.and_eq_true]
      exact ⟨⟨by simp, sameKeySet_refl _⟩,
        comparedEq_refl (resolveCompared kk) ax h.1 h.2⟩
  | .vforeign none, _ => by simp [valueEq]
  | .vforeign (some r), h => by
      simp only [valueWF] at h
      simp only [valueEq]
      exact valueEq_refl r h
termination_by v => sizeOf v
decreasing_by
  all_goals simp_wf
  all_goals first
    | omega
    | (have h1 := sizeOf_resolveCompared kk
       omega)
theorem valuesEq_refl : ∀ (vs : List Value), valuesWF vs = true → valuesEq vs vs = true
  | [], _ => by simp [valuesEq]
  | v :: rest, h => by
      simp only [valuesWF, Bool.and_eq_true] at h
      simp only [valuesEq, Bool.and_eq_true]
      exact ⟨valueEq_refl v h.1, valuesEq_refl rest h.2⟩
termination_by vs => sizeOf vs
decreasing_by all_goals simp_wf <;> omega
theorem pairsEqIn_refl : ∀ (sub l : List (String × Value)),
    (∀ kv ∈ sub, alookup l kv.1 = some kv.2) →
    (∀ kv ∈ sub, valueWF kv.2 = true) → pairsEqIn sub l = true
  | [], _, _, _ => by simp [pairsEqIn]
  | (k, v) :: rest, l, hs, hw => by
      simp only [pairsEqIn, Bool.and_eq_true]
      constructor
      · rw [atKeyEq_eq_dget, dget, hs (k, v) (List.mem_cons_self _ _)]
        simp only [Option.getD_some]
        exact valueEq_refl v (hw (k, v) (List.mem_cons_self _ _))
      · exact pairsEqIn_refl rest l (fun kv hkv => hs kv (List.mem_cons_of_mem _ hkv))
          (fun kv hkv => hw kv (List.mem_cons_of_mem _ hkv))
termination_by sub l => sizeOf sub
decreasing_by all_goals simp_wf <;> omega
theorem comparedEq_refl : ∀ (ks : List String) (ax : List (String × Value)),
    nodupKeysB (keysOf ax) = true → pairsWF ax = true → comparedEq ks ax ax = true
  | [], _, _, _ => by simp [comparedEq]
  | k :: rest, ax, hn, hw => by
      simp only [comparedEq, Bool.and_eq_true]
      constructor
      · rw [atKeyEq_eq_dget]
        cases hh : alookup ax k with
        | none =>
          rw [dget, hh]
          simp only [Option.getD_none]
          simp [valueEq]
        | some v =>
          rw [dget, hh]
          simp only [Option.getD_some]
          exact valueEq_refl v (pairsWF_mem hw (mem_of_alookup hh))
      · exact comparedEq_refl rest ax hn hw
termination_by ks ax => sizeOf ks + sizeOf ax
decreasing_by
  all_goals simp_wf
  all_goals first
    | omega
    | (have h1 := sizeOf_alookup hh
       omega)
end

theorem valueEq_scalar_refl {v : Value} (h : scalarShape v) : valueEq v v = true := by
  rcases h with ⟨n, hn⟩ | ⟨s, hs⟩ <;> subst_vars <;> simp [valueEq]

theorem contains_false_of_not_mem {l : List String} {k : String} (h : k ∉ l) :
    l.contains k = false := by
  cases hc : l.contains k
  · rfl
  · exact absurd (by simpa using hc) h

theorem required_listed {K : KindD} {k : String} (h : k ∈ K.required) :
    (listedOf K).contains k = true := by
  simp [listedOf]
  exact Or.inl h

theorem optional_listed {K : KindD} {k : String} (h : k ∈ keysOf K.optional) :
    (listedOf K).contains k = true := by
  by_cases hr : k ∈ K.required
  · exact required_listed hr
  · simp [listedOf, hr]
    exact Or.inl h

theorem types_listed {K : KindD} {k : String} (h : k ∈ keysOf K.types) :
    (listedOf K).contains k = true := by
  by_cases hr : k ∈ K.required
  · exact required_listed hr
  · simp [listedOf, hr]
    exact Or.inr h

theorem listed_cases {K : KindD} {k : String} (h : (listedOf K).contains k = true) :
    k ∈ K.required ∨ k ∈ keysOf K.optional ∨ k ∈ keysOf K.types := by
  simp [listedOf] at h
  rcases h with h | h
  · exact Or.inl h
  · rcases h with ⟨h, _⟩ | ⟨h, _⟩
    · exact Or.inr (Or.inl h)
    · exact Or.inr (Or.inr h)

theorem checkRequired_ok_iff {K : KindD} {obj : Value} {kw : List (String × Value)} :
    checkRequired K obj kw = .ok () ↔ ∀ r ∈ K.required, hasKey kw r = true := by
  rw [checkRequired, firstMissing]
  cases hf : K.required.find? (fun a => !(hasKey kw a)) with
  | some a =>
    simp only [hf]
    constructor
    · intro h; cases h
    · intro h
      have hmem := List.mem_of_find?_eq_some hf
      have hpred := List.find?_some hf
      rw [h a hmem] at hpred
      simp at hpred
  | none =>
    simp only [hf]
    constructor
    · intro _ r hr
      have := List.find?_eq_none.mp hf r hr
      simpa using this
    · intro _
      trivial

theorem checkRequired_missing {K : KindD} {obj : Value} {kw : List (String × Value)}
    {r : String} (hr : r ∈ K.required) (hm : hasKey kw r = false) :
    ∃ a, a ∈ K.required ∧ hasKey kw a = false ∧
      checkRequired K obj kw = .error (.missingAttr a obj) := by
  rw [checkRequired, firstMissing]
  cases hf : K.required.find? (fun a => !(hasKey kw a)) with
  | some a =>
    simp only [hf]
    refine ⟨a, List.mem_of_find?_eq_some hf, ?_, rfl⟩
    have := List.find?_some hf
    simpa using this
  | none =>
    exfalso
    have := List.find?_eq_none.mp hf r hr
    simp [hm] at this

theorem applyPolicy_ignore {K : KindD} (h : K.unlisted = none)
    (kw : List (String × Value)) : applyPolicy K kw = .ok kw := by
  rw [applyPolicy, h]

theorem applyPolicy_udel {K : KindD} (h : K.unlisted = some .udel)
    (kw : List (String × Value)) :
    applyPolicy K kw = .ok (kw.filter (fun kv => (listedOf K).contains kv.1)) := by
  rw [applyPolicy, h]

theorem applyPolicy_uraise_ok {K : KindD} {kw kw2 : List (String × Value)}
    (h : K.unlisted = some .uraise) (hok : applyPolicy K kw = .ok kw2) :
    kw2 = kw ∧ ∀ key ∈ keysOf kw, (listedOf K).contains key = true := by
  rw [applyPolicy, h] at hok
  cases hf : firstUnlisted K kw with
  | some k => rw [hf] at hok; cases hok
  | none =>
    rw [hf] at hok
    cases hok
    refine ⟨rfl, fun key hk => ?_⟩
    rw [firstUnlisted] at hf
    have := List.find?_eq_none.mp hf key hk
    simpa using this

theorem applyPolicy_uraise_err {K : KindD} {kw : List (String × Value)}
    {k : String} (h : K.unlisted = some .uraise) (hk : k ∈ keysOf kw)
    (hu : (listedOf K).contains k = false) :
    ∃ k2, (listedOf K).contains k2 = false ∧
      applyPolicy K kw = .error (.unlistedAttr k2) := by
  rw [applyPolicy, h]
  cases hf : firstUnlisted K kw with
  | some k2 =>
    simp only [hf]
    refine ⟨k2, ?_, rfl⟩
    have := List.find?_some hf
    simpa using this
  | none =>
    exfalso
    rw [firstUnlisted] at hf
    have h2 := List.find?_eq_none.mp hf k hk
    have h3 : (listedOf K).contains k = true := by simpa using h2
    rw [h3] at hu
    simp at hu

theorem applyPolicy_preserve_listed {K : KindD} {kw kw2 : List (String × Value)}
    (hok : applyPolicy K kw = .ok kw2) {k : String}
    (hl : (listedOf K).contains k = true) : alookup kw2 k = alookup kw k := by
  rw [applyPolicy] at hok
  cases hu : K.unlisted with
  | none => rw [hu] at hok; cases hok; rfl
  | some p =>
    cases p with
    | udel =>
      rw [hu] at hok
      cases hok
      rw [alookup_filter_key, if_pos hl]
    | uraise =>
      rw [hu] at hok
      cases hf : firstUnlisted K kw with
      | some k2 => rw [hf] at hok; cases hok
      | none => rw [hf] at hok; cases hok; rfl

theorem applyPolicy_lookup_sub {K : KindD} {kw kw2 : List (String × Value)}
    (hok : applyPolicy K kw = .ok kw2) (k : String) :
    alookup kw2 k = alookup kw k ∨ alookup kw2 k = none := by
  rw [applyPolicy] at hok
  cases hu : K.unlisted with
  | none => rw [hu] at hok; cases hok; exact Or.inl rfl
  | some p =>
    cases p with
    | udel =>
      rw [hu] at hok
      cases hok
      rw [alookup_filter_key]
      by_cases hl : (listedOf K).contains k = true
      · rw [if_pos hl]; exact Or.inl rfl
      · rw [if_neg hl]; exact Or.inr rfl
    | uraise =>
      rw [hu] at hok
      cases hf : firstUnlisted K kw with
      | some k2 => rw [hf] at hok; cases hok
      | none => rw [hf] at hok; cases hok; exact Or.inl rfl

theorem nodupKeysB_filter {l : List (String × Value)} (p : String × Value → Bool)
    (hn : nodupKeysB (keysOf l) = true) :
    nodupKeysB (keysOf (l.filter p)) = true := by
  induction l with
  | nil => exact hn
  | cons kv rest ih =>
    obtain ⟨k1, v1⟩ := kv
    simp only [keysOf, List.map_cons] at hn
    rw [nodupKeysB, Bool.and_eq_true] at hn
    have ihr := ih (by rw [keysOf]; exact hn.2)
    rw [List.filter]
    cases hp : p (k1, v1) with
    | false => exact ihr
    | true =>
      simp only [keysOf, List.map_cons]
      rw [nodupKeysB, Bool.and_eq_true]
      refine ⟨?_, by rw [keysOf] at ihr; exact ihr⟩
      have h1 : k1 ∉ keysOf rest := by
        intro hm
        have hc : (keysOf rest).contains k1 = false := by
          rw [keysOf]; simpa using hn.1
        simp [hm] at hc
      have h2 : k1 ∉ keysOf (rest.filter p) := by
        intro hm
        obtain ⟨kv2, hkv2, he⟩ := List.mem_map.mp hm
        exact h1 (List.mem_map.mpr ⟨kv2, List.mem_of_mem_filter hkv2, he⟩)
      have h3 : (List.map Prod.fst (List.filter p rest)).contains k1 = false := by
        rw [keysOf] at h2
        exact contains_false_of_not_mem h2
      rw [h3]
      rfl

theorem applyPolicy_nodup {K : KindD} {kw kw2 : List (String × Value)}
    (hok : applyPolicy K kw = .ok kw2) (hn : nodupKeysB (keysOf kw) = true) :
    nodupKeysB (keysOf kw2) = true := by
  rw [applyPolicy] at hok
  cases hu : K.unlisted with
  | none => rw [hu] at hok; cases hok; exact hn
  | some p =>
    cases p with
    | udel =>
      rw [hu] at hok
      cases hok
      exact nodupKeysB_filter _ hn
    | uraise =>
      rw [hu] at hok
      cases hf : firstUnlisted K kw with
      | some k2 => rw [hf] at hok; cases hok
      | none => rw [hf] at hok; cases hok; exact hn

theorem construct_ok_elim {K : KindD} {obj : Value} {x : Inst}
    (h : construct K obj = .ok x) :
    ∃ kwargs kwargs2 attrs1,
      normalizeInput K obj = .ok kwargs ∧
      checkRequired K obj kwargs = .ok () ∧
      applyPolicy K kwargs = .ok kwargs2 ∧
      coerceLoop K.types (updateAll (updateAll [] K.optional) kwargs2) = .ok attrs1 ∧
      x = .mk K (attrs1.filter (fun kv => !(internalNames.contains kv.1))) := by
  rw [construct] at h
  cases h1 : normalizeInput K obj with
  | error e => simp [h1] at h
  | ok kwargs =>
    simp only [h1] at h
    cases h2 : checkRequired K obj kwargs with
    | error e => simp [h2] at h
    | ok u =>
      cases u
      simp only [h2] at h
      cases h3 : applyPolicy K kwargs with
      | error e => simp [h3] at h
      | ok kwargs2 =>
        simp only [h3] at h
        cases h4 : coerceLoop K.types (updateAll (updateAll [] K.optional) kwargs2) with
        | error e => simp [h4] at h
        | ok attrs1 =>
          simp only [h4] at h
          cases h
          exact ⟨kwargs, kwargs2, attrs1, rfl, h2, h3, h4, rfl⟩

theorem construct_intro {K : KindD} {obj : Value}
    {kwargs kwargs2 attrs1 : List (String × Value)}
    (h1 : normalizeInput K obj = .ok kwargs)
    (h2 : checkRequired K obj kwargs = .ok ())
    (h3 : applyPolicy K kwargs = .ok kwargs2)
    (h4 : coerceLoop K.types (updateAll (updateAll [] K.optional) kwargs2) = .ok attrs1) :
    construct K obj =
      .ok (.mk K (attrs1.filter (fun kv => !(internalNames.contains kv.1)))) := by
  rw [construct]
  simp only [h1, h2, h3, h4]

theorem mem_changedKeys {i : Inst} {k : String} {v : Value}
    (hm : (k, v) ∈ i.attrs) (hc : changedKey i.kind k v = true) :
    k ∈ changedKeys i := by
  rw [changedKeys]
  exact List.mem_map.mpr ⟨(k, v), List.mem_filter.mpr ⟨hm, hc⟩, rfl⟩

theorem not_mem_changedKeys {i : Inst} {k : String}
    (h : ∀ v, changedKey i.kind k v = false) : k ∉ changedKeys i := by
  rw [changedKeys]
  intro hm
  obtain ⟨⟨k2, v2⟩, hkv, he⟩ := List.mem_map.mp hm
  have hf := List.mem_filter.mp hkv
  cases he
  rw [h v2] at hf
  exact absurd hf.2 (by simp)

theorem valueWF_scalar {v : Value} (h : scalarShape v) : valueWF v = true := by
  rcases h with ⟨n, hn⟩ | ⟨s, hs⟩ <;> subst_vars <;> rfl

theorem valuesWF_of_forall {vs : List Value} (h : ∀ v ∈ vs, valueWF v = true) :
    valuesWF vs = true := by
  induction vs with
  | nil => rfl
  | cons v rest ih =>
    rw [valuesWF, Bool.and_eq_true]
    exact ⟨h v (List.mem_cons_self _ _),
      ih (fun w hw => h w (List.mem_cons_of_mem _ hw))⟩

theorem instantiateAttr_wf {ts : TypeSpec} {a : String} {v w : Value}
    (h : instantiateAttr ts a v = .ok w) : valueWF w = true := by
  cases ts with
  | scalar c => exact valueWF_scalar (instantiateAttr_scalar_ok h)
  | listOf c =>
    rw [instantiateAttr, instantiateFull] at h
    by_cases hv : noneEqB v = true
    · rw [if_pos hv] at h
      simp at h
      subst h
      rfl
    · rw [if_neg hv] at h
      cases he : iterElems v with
      | error e => simp [he] at h
      | ok es =>
        simp only [he] at h
        cases hm : ctorMapList c es with
        | error e => simp [hm] at h
        | ok ws =>
          simp only [hm] at h
          simp at h
          subst h
          rw [valueWF]
          exact valuesWF_of_forall (fun x hx => valueWF_scalar (ctorMapList_shape hm x hx))

theorem reserved_of_internal {k : String} (h : internalNames.contains k = true) :
    reservedNames.contains k = true := by
  simp [internalNames] at h
  rcases h with h | h | h <;> subst h <;> decide

theorem alookup_internal_triple {k : String} {a b c : Value}
    (h : internalNames.contains k = false) :
    alookup [("_reserved", a), ("_compared", b), ("_printed", c)] k = none := by
  simp [internalNames] at h
  obtain ⟨h1, h2, h3⟩ := h
  have g1 : ¬ "_reserved" = k := fun hh => h1 hh.symm
  have g2 : ¬ "_compared" = k := fun hh => h2 hh.symm
  have g3 : ¬ "_printed" = k := fun hh => h3 hh.symm
  simp [alookup, g1, g2, g3]

theorem nodupKeysB_append {l1 l2 : List String} (h1 : nodupKeysB l1 = true)
    (h2 : nodupKeysB l2 = true) (hd : ∀ k ∈ l2, k ∉ l1) :
    nodupKeysB (l1 ++ l2) = true := by
  induction l1 with
  | nil => exact h2
  | cons a rest ih =>
    rw [nodupKeysB, Bool.and_eq_true] at h1
    rw [List.cons_append, nodupKeysB, Bool.and_eq_true]
    constructor
    · have ha : a ∉ rest := by
        have := h1.1
        simpa using this
      have ha2 : a ∉ l2 := by
        intro hm
        exact hd a hm (List.mem_cons_self _ _)
      have : a ∉ rest ++ l2 := by
        intro hm
        rcases List.mem_append.mp hm with hm | hm
        · exact ha hm
        · exact ha2 hm
      simpa using this
    · exact ih h1.2 (fun k hk hm => hd k hk (List.mem_cons_of_mem _ hm))

theorem keysOf_append {α : Type} (a b : List (String × α)) :
    keysOf (a ++ b) = keysOf a ++ keysOf b := by
  simp [keysOf]

theorem pairsWF_of_forall {l : List (String × Value)}
    (h : ∀ kv ∈ l, valueWF kv.2 = true) : pairsWF l = true := by
  induction l with
  | nil => rfl
  | cons kv rest ih =>
    obtain ⟨k, v⟩ := kv
    rw [pairsWF, Bool.and_eq_true]
    exact ⟨h (k, v) (List.mem_cons_self _ _),
      ih (fun kv2 hkv2 => h kv2 (List.mem_cons_of_mem _ hkv2))⟩

theorem applyPolicy_exists {K : KindD} {kw : List (String × Value)}
    (h : K.unlisted = some .uraise →
      ∀ key ∈ keysOf kw, (listedOf K).contains key = true) :
    ∃ kw2, applyPolicy K kw = .ok kw2 := by
  cases hu : K.unlisted with
  | none => exact ⟨kw, applyPolicy_ignore hu kw⟩
  | some p =>
    cases p with
    | udel => exact ⟨_, applyPolicy_udel hu kw⟩
    | uraise =>
      refine ⟨kw, ?_⟩
      rw [applyPolicy, hu]
      have hf : firstUnlisted K kw = none := by
        rw [firstUnlisted]
        apply List.find?_eq_none.mpr
        intro key hk
        simpa using h hu key hk
      rw [hf]

/-- The filtered attribute store of a constructed instance, looked up. -/
theorem filter_internal_lookup (attrs1 : List (String × Value)) (k : String) :
    alookup (attrs1.filter (fun kv => !(internalNames.contains kv.1))) k =
      if internalNames.contains k then none else alookup attrs1 k := by
  rw [alookup_filter_key attrs1 (fun k => !(internalNames.contains k)) k]
  cases hc : internalNames.contains k <;> simp [hc]

/-- Facts about a successfully constructed instance that the relational
claims need: its kind, key uniqueness, absence of the bookkeeping names,
presence of the required attributes, the optional-default tracing of
absent attributes, the listed-only guarantee of the 'del' policy, the
idempotence of re-coercing already-coerced typed attributes, and the
representation well-formedness of its values. -/
theorem construct_facts {K : KindD} {kvs : List (String × Value)} {x : Inst}
    (hx : construct K (.vdict kvs) = .ok x)
    (hnI : nodupKeysB (keysOf kvs) = true)
    (hnO : nodupKeysB (keysOf K.optional) = true)
    (hnT : nodupKeysB (keysOf K.types) = true) :
    x.kind = K
    ∧ nodupKeysB (keysOf x.attrs) = true
    ∧ (∀ k, internalNames.contains k = true → alookup x.attrs k = none)
    ∧ (∀ r ∈ K.required, internalNames.contains r = false →
        (alookup x.attrs r).isSome = true)
    ∧ (∀ k, internalNames.contains k = false → alookup x.attrs k = none →
        alookup K.optional k = none)
    ∧ (K.unlisted = some .udel → ∀ k, (listedOf K).contains k = false →
        alookup x.attrs k = none)
    ∧ (∀ a ts, alookup K.types a = some ts → internalNames.contains a = false →
        ∃ w, alookup x.attrs a = some w ∧ instantiateAttr ts a w = .ok w)
    ∧ (pairsWF kvs = true → pairsWF K.optional = true → pairsWF x.attrs = true)
    ∧ (∀ k, (alookup x.attrs k).isSome = true →
        k ∈ keysOf kvs ∨ k ∈ keysOf K.optional) := by
  obtain ⟨kwargs, kwargs2, attrs1, h1, h2, h3, h4, hxeq⟩ := construct_ok_elim hx
  have hkw : kwargs = kvs := by
    rw [normalizeInput] at h1
    exact (Except.ok.inj h1).symm
  subst hkw
  rw [updateAll_nil hnO] at h4
  have hn2 : nodupKeysB (keysOf kwargs2) = true := applyPolicy_nodup h3 hnI
  have lookup0 : ∀ k, alookup (updateAll K.optional kwargs2) k =
      oElse (alookup kwargs2 k) (alookup K.optional k) :=
    fun k => alookup_updateAll hn2 K.optional k
  have hn0 : nodupKeysB (keysOf (updateAll K.optional kwargs2)) = true :=
    nodupKeysB_updateAll hnO
  have hn1 : nodupKeysB (keysOf attrs1) = true := by
    rw [coerceLoop_keys h4]
    exact hn0
  have hxk : x.kind = K := by rw [hxeq]; rfl
  have hxa : x.attrs = attrs1.filter (fun kv => !(internalNames.contains kv.1)) := by
    rw [hxeq]; rfl
  have hxlook : ∀ k, alookup x.attrs k =
      if internalNames.contains k then none else alookup attrs1 k := by
    intro k
    rw [hxa, filter_internal_lookup]
  refine ⟨hxk, ?_, ?_, ?_, ?_, ?_, ?_, ?_, ?_⟩
  · rw [hxa]
    exact nodupKeysB_filter _ hn1
  · intro k hk
    rw [hxlook k, if_pos hk]
  · intro r hr hri
    rw [hxlook r, if_neg (by rw [hri]; simp)]
    have hreq : hasKey kwargs r = true := (checkRequired_ok_iff.mp h2) r hr
    have hlst : (listedOf K).contains r = true := required_listed hr
    cases hts : alookup K.types r with
    | some ts =>
      obtain ⟨v, w, hv, hw, hout⟩ := coerceLoop_some h4 hnT hts
      simp [hout]
    | none =>
      rw [coerceLoop_none h4 hts, lookup0 r,
        applyPolicy_preserve_listed h3 hlst]
      rw [hasKey] at hreq
      cases hkv : alookup kwargs r with
      | none => rw [hkv] at hreq; simp at hreq
      | some v => simp [oElse]
  · intro k hki hnone
    rw [hxlook k, if_neg (by rw [hki]; simp)] at hnone
    cases hts : alookup K.types k with
    | some ts =>
      obtain ⟨v, w, hv, hw, hout⟩ := coerceLoop_some h4 hnT hts
      rw [hout] at hnone
      cases hnone
    | none =>
      rw [coerceLoop_none h4 hts, lookup0 k] at hnone
      cases hk2 : alookup kwargs2 k with
      | some v => rw [hk2] at hnone; simp [oElse] at hnone
      | none =>
        rw [hk2] at hnone
        simpa [oElse] using hnone
  · intro hdel k hl
    rw [hxlook k]
    by_cases hki : internalNames.contains k = true
    · rw [if_pos hki]
    · rw [if_neg hki]
      have hopt : alookup K.optional k = none := by
        rw [alookup_eq_none]
        intro hm
        rw [optional_listed hm] at hl
        cases hl
      have hts : alookup K.types k = none := by
        rw [alookup_eq_none]
        intro hm
        rw [types_listed hm] at hl
        cases hl
      rw [coerceLoop_none h4 hts, lookup0 k]
      have hk2 : alookup kwargs2 k = none := by
        have := applyPolicy_udel hdel kwargs
        rw [this] at h3
        cases h3
        rw [alookup_filter_key, if_neg (by rw [hl]; simp)]
      rw [hk2, hopt]
      rfl
  · intro a ts hts hai
    obtain ⟨v, w, hv, hw, hout⟩ := coerceLoop_some h4 hnT hts
    refine ⟨w, ?_, instantiateAttr_idem hw⟩
    rw [hxlook a, if_neg (by rw [hai]; simp), hout]
  · intro hwI hwO
    rw [hxa]
    apply pairsWF_of_forall
    intro kv hkv
    obtain ⟨k, v⟩ := kv
    have hm1 : (k, v) ∈ attrs1 := List.mem_of_mem_filter hkv
    have hl1 : alookup attrs1 k = some v := alookup_of_mem_nodup hn1 hm1
    cases hts : alookup K.types k with
    | some ts =>
      obtain ⟨v2, w, hv2, hw, hout⟩ := coerceLoop_some h4 hnT hts
      rw [hout] at hl1
      cases hl1
      exact instantiateAttr_wf hw
    | none =>
      rw [coerceLoop_none h4 hts, lookup0 k] at hl1
      cases hk2 : alookup kwargs2 k with
      | some v2 =>
        rw [hk2] at hl1
        rw [oElse] at hl1
        cases hl1
        rcases applyPolicy_lookup_sub h3 k with hs | hs
        · rw [hk2] at hs
          exact pairsWF_mem hwI (mem_of_alookup hs.symm)
        · rw [hk2] at hs
          cases hs
      | none =>
        rw [hk2] at hl1
        rw [oElse] at hl1
        exact pairsWF_mem hwO (mem_of_alookup hl1)
  · intro k hsome
    rw [hxlook k] at hsome
    by_cases hki : internalNames.contains k = true
    · rw [if_pos hki] at hsome
      simp at hsome
    · rw [if_neg hki] at hsome
      have h1some : (alookup (updateAll K.optional kwargs2) k).isSome = true := by
        cases hts : alookup K.types k with
        | some ts =>
          obtain ⟨v, w, hv, hw, hout⟩ := coerceLoop_some h4 hnT hts
          simp [hv]
        | none =>
          rw [coerceLoop_none h4 hts] at hsome
          exact hsome
      rw [lookup0 k] at h1some
      cases hk2 : alookup kwargs2 k with
      | some v =>
        rcases applyPolicy_lookup_sub h3 k with hs | hs
        · rw [hk2] at hs
          exact Or.inl ((alookup_isSome_iff _ _).mp (by rw [← hs]; simp))
        · rw [hk2] at hs
          cases hs
      | none =>
        rw [hk2] at h1some
        simp only [oElse] at h1some
        exact Or.inr ((alookup_isSome_iff _ _).mp h1some)

theorem mem_of_contains {l : List String} {k : String} (h : l.contains k = true) :
    k ∈ l := by
  simpa using h

/-- Re-running the construction pipeline on an input whose mapping agrees
with an instance's attribute store succeeds and reproduces the attribute
store, provided the typed attributes already hold re-coercion fixed
points.  This is the shared engine behind the copy-construction and the
serialization round-trip claims. -/
theorem reconstruct (K : KindD) (obj : Value) (attrsX kw0 : List (String × Value))
    (hkw0 : normalizeInput K obj = .ok kw0)
    (hn0 : nodupKeysB (keysOf kw0) = true)
    (hnO : nodupKeysB (keysOf K.optional) = true)
    (hnT : nodupKeysB (keysOf K.types) = true)
    (hnames : ∀ k ∈ listedOf K, internalNames.contains k = false)
    (hkweq : ∀ k, internalNames.contains k = false → alookup kw0 k = alookup attrsX k)
    (hreqx : ∀ r ∈ K.required, (alookup attrsX r).isSome = true)
    (hoptnone : ∀ k, internalNames.contains k = false → alookup attrsX k = none →
      alookup K.optional k = none)
    (hraise : K.unlisted = some .uraise →
      ∀ key ∈ keysOf kw0, (listedOf K).contains key = true)
    (hdel : K.unlisted = some .udel → ∀ k, (listedOf K).contains k = false →
      alookup attrsX k = none)
    (hidem : ∀ a ts, alookup K.types a = some ts →
      ∃ w, alookup attrsX a = some w ∧ instantiateAttr ts a w = .ok w) :
    ∃ y, construct K obj = .ok y ∧ y.kind = K ∧
      ∀ k, alookup y.attrs k =
        (if internalNames.contains k then none else alookup attrsX k) := by
  have h2 : checkRequired K obj kw0 = .ok () := by
    apply checkRequired_ok_iff.mpr
    intro r hr
    have hri : internalNames.contains r = false :=
      hnames r (mem_of_contains (required_listed hr))
    rw [hasKey, hkweq r hri]
    exact hreqx r hr
  obtain ⟨kw2, h3⟩ := applyPolicy_exists hraise
  have hn2 : nodupKeysB (keysOf kw2) = true := applyPolicy_nodup h3 hn0
  have lookup0 : ∀ k, alookup (updateAll K.optional kw2) k =
      oElse (alookup kw2 k) (alookup K.optional k) :=
    fun k => alookup_updateAll hn2 K.optional k
  have hLOOK : ∀ k, internalNames.contains k = false →
      alookup (updateAll K.optional kw2) k = alookup attrsX k := by
    intro k hki
    rw [lookup0 k]
    cases hl : (listedOf K).contains k with
    | true =>
      rw [applyPolicy_preserve_listed h3 hl, hkweq k hki]
      cases hX : alookup attrsX k with
      | some v => rw [oElse]
      | none => rw [oElse, hoptnone k hki hX]
    | false =>
      have hopt : alookup K.optional k = none := by
        rw [alookup_eq_none]
        intro hm
        rw [optional_listed hm] at hl
        cases hl
      cases hu : K.unlisted with
      | none =>
        have he := applyPolicy_ignore hu kw0
        rw [he] at h3
        cases h3
        rw [hkweq k hki]
        cases hX : alookup attrsX k with
        | some v => rw [oElse]
        | none => rw [oElse, hopt]
      | some p =>
        cases p with
        | udel =>
          have he := applyPolicy_udel hu kw0
          rw [he] at h3
          cases h3
          rw [alookup_filter_key, if_neg (by rw [hl]; simp), oElse, hopt,
            hdel hu k hl]
        | uraise =>
          obtain ⟨hkw2, hall⟩ := applyPolicy_uraise_ok hu h3
          subst hkw2
          have hk0 : alookup kw2 k = none := by
            rw [alookup_eq_none]
            intro hm
            rw [hall k hm] at hl
            cases hl
          rw [hk0, oElse, hopt, ← hkweq k hki, hk0]
  have hcoerce : ∃ attrs1, coerceLoop K.types (updateAll K.optional kw2) = .ok attrs1 := by
    apply coerceLoop_intro hnT
    intro a ts hats
    have hmemT : a ∈ keysOf K.types := (alookup_isSome_iff _ _).mp (by simp [hats])
    have hal : (listedOf K).contains a = true := types_listed hmemT
    have hai : internalNames.contains a = false := hnames a (mem_of_contains hal)
    obtain ⟨w, hw, hwidem⟩ := hidem a ts hats
    refine ⟨w, ?_, ⟨w, hwidem⟩⟩
    rw [lookup0 a, applyPolicy_preserve_listed h3 hal, hkweq a hai, hw, oElse]
  obtain ⟨attrs1, h4⟩ := hcoerce
  have h4o : coerceLoop K.types (updateAll (updateAll [] K.optional) kw2) = .ok attrs1 := by
    rw [updateAll_nil hnO]
    exact h4
  refine ⟨_, construct_intro hkw0 h2 h3 h4o, rfl, ?_⟩
  intro k
  simp only [Inst.attrs]
  rw [filter_internal_lookup]
  cases hki : internalNames.contains k with
  | true => rfl
  | false =>
    simp only [if_neg Bool.false_ne_true]
    cases hts : alookup K.types k with
    | none =>
      rw [coerceLoop_none h4 hts]
      exact hLOOK k hki
    | some ts =>
      obtain ⟨v, w2, hv, hw2, hout⟩ := coerceLoop_some h4 hnT hts
      obtain ⟨w, hwX, hwidem⟩ := hidem k ts hts
      have hmemT : k ∈ keysOf K.types := (alookup_isSome_iff _ _).mp (by simp [hts])
      have hal : (listedOf K).contains k = true := types_listed hmemT
      have h0 : alookup (updateAll K.optional kw2) k = some w := by
        rw [lookup0 k, applyPolicy_preserve_listed h3 hal, hkweq k hki, hwX, oElse]
      rw [h0] at hv
      injection hv with he1
      rw [← he1] at hw2
      rw [hwidem] at hw2
      injection hw2 with he2
      rw [hout, hwX, ← he2]

/-- If two instances of the same kind have pointwise equal attribute
lookups, the second well-formed, they compare equal under
`MetaObject.__eq__`. -/
theorem instEq_of_lookup_eq (K : KindD) (ax ay : List (String × Value))
    (heq : ∀ k, alookup ay k = alookup ax k)
    (hn : nodupKeysB (keysOf ax) = true)
    (hwf : pairsWF ax = true) :
    instEq (.mk K ay) (.mk K ax) = true := by
  rw [instEq_unfold]
  simp only [Bool.and_eq_true]
  refine ⟨⟨by simp, sameKeySet_refl _⟩, ?_⟩
  rw [comparedEq_all]
  apply List.all_eq_true.mpr
  intro k hk
  have hd : dget ay k = dget ax k := by rw [dget, dget, heq k]
  rw [hd]
  cases hh : alookup ax k with
  | none =>
    rw [dget, hh]
    simp only [Option.getD_none]
    simp [valueEq]
  | some v =>
    rw [dget, hh]
    simp only [Option.getD_some]
    exact valueEq_refl v (pairsWF_mem hwf (mem_of_alookup hh))

theorem all_congr_mem {α : Type} {l : List α} {f g : α → Bool}
    (h : ∀ a ∈ l, f a = g a) : l.all f = l.all g := by
  induction l with
  | nil => rfl
  | cons a rest ih =>
    rw [List.all_cons, List.all_cons, h a (List.mem_cons_self _ _),
      ih (fun b hb => h b (List.mem_cons_of_mem _ hb))]

/-- C2: for every entity kind with a non-empty required set, constructing
an instance from a mapping in which at least one required attribute name
is absent fails with the missing-attribute error naming the missing
attribute and the original input (lines 96-99), and no instance is
produced (the pipeline returns the error instead of an instance). -/
theorem claim2_missing_required (K : KindD) (kvs : List (String × Value))
    (r : String) (hne : K.required ≠ []) (hr : r ∈ K.required)
    (hm : hasKey kvs r = false) :
    ∃ a, a ∈ K.required ∧ hasKey kvs a = false ∧
      construct K (.vdict kvs) = .error (.missingAttr a (.vdict kvs)) := by
  obtain ⟨a, ha, hk, hc⟩ :=
    @checkRequired_missing K (.vdict kvs) kvs r hr hm
  refine ⟨a, ha, hk, ?_⟩
  rw [construct]
  have h1 : normalizeInput K (.vdict kvs) = .ok kvs := rfl
  simp only [h1, hc]

/-- Witness for C2: a kind requiring `name`, constructed from the empty
mapping, fails naming `name` and the input. -/
theorem claim2_witness :
    ∃ a, a ∈ (KindD.mk "Rec" ["name"] [] [] [] [] none).required ∧
      hasKey ([] : List (String × Value)) a = false ∧
      construct (KindD.mk "Rec" ["name"] [] [] [] [] none) (.vdict []) =
        .error (.missingAttr a (.vdict [])) :=
  claim2_missing_required (KindD.mk "Rec" ["name"] [] [] [] [] none) [] "name"
    (by simp [KindD.required]) (by simp [KindD.required]) rfl

/-- C5: the coercion operation maps a `[C]` spec with a null value to the
empty sequence and with a sequence value to the elementwise application
of `C`; a scalar spec maps a null value to `C()` and any other value to
`C(value)` (lines 135-146; an absent attribute never reaches the
coercion, since `getattr` raises first). -/
theorem claim5_coercion_contract (c : Ctor) (a : String) (v : Value)
    (vs : List Value) (hv : v ≠ .vnone) :
    instantiateAttr (.listOf c) a .vnone = .ok (.vlist [])
    ∧ instantiateAttr (.listOf c) a (.vlist vs) = (ctorMapList c vs).map Value.vlist
    ∧ instantiateAttr (.scalar c) a .vnone = .ok (ctorZero c)
    ∧ instantiateAttr (.scalar c) a v = ctorApply c v := by
  have hnb : noneEqB v = false := by
    cases v <;> first | (exact absurd rfl hv) | rfl
  refine ⟨rfl, ?_, rfl, ?_⟩
  · rw [instantiateAttr, instantiateFull]
    have hl : noneEqB (Value.vlist vs) = false := rfl
    rw [if_neg (by rw [hl]; simp)]
    have hit : iterElems (Value.vlist vs) = .ok vs := rfl
    rw [hit]
    cases hm : ctorMapList c vs <;> simp [hm, Except.map]
  · rw [instantiateAttr, instantiateFull, if_neg (by rw [hnb]; simp)]
    cases hc : ctorApply c v <;> simp [hc]

/-- Witness for C5 with the `int` constructor. -/
theorem claim5_witness :
    instantiateAttr (.listOf .cint) "xs" .vnone = .ok (.vlist [])
    ∧ instantiateAttr (.listOf .cint) "xs" (.vlist [.vint 1]) =
        (ctorMapList .cint [.vint 1]).map Value.vlist
    ∧ instantiateAttr (.scalar .cint) "xs" .vnone = .ok (ctorZero .cint)
    ∧ instantiateAttr (.scalar .cint) "xs" (.vstr "7") = ctorApply .cint (.vstr "7") :=
  claim5_coercion_contract .cint "xs" (.vstr "7") [.vint 1] (by simp)

/-- C6: whenever a declared constructor fails while coercing an attribute
value, `_instantiate` logs the constructor spec, the attribute name and
the value and re-raises the original exception unchanged (the propagated
failure the spec's taxonomy names CoercionError, with the original cause
preserved); nothing is swallowed, no coerced value is produced, and the
construction loop aborts with the same error, storing nothing. -/
theorem claim6_coercion_failure_logged (c : Ctor) (ts : TypeSpec) (a : String)
    (v : Value) (vs : List Value) (e : PErr) (attrs : List (String × Value))
    (rest : List (String × TypeSpec)) :
    (v ≠ .vnone → ctorApply c v = .error e →
      instantiateFull (.scalar c) a v = (.error e, [.coercionFailure (.scalar c) a v]))
    ∧ (ctorMapList c vs = .error e →
      instantiateFull (.listOf c) a (.vlist vs) =
        (.error e, [.coercionFailure (.listOf c) a (.vlist vs)]))
    ∧ (alookup attrs a = some v → instantiateAttr ts a v = .error e →
      coerceLoop ((a, ts) :: rest) attrs = .error e) := by
  refine ⟨?_, ?_, ?_⟩
  · intro hv hc
    have hnb : noneEqB v = false := by
      cases v <;> first | (exact absurd rfl hv) | rfl
    rw [instantiateFull, if_neg (by rw [hnb]; simp)]
    simp only [hc]
  · intro hm
    rw [instantiateFull]
    have hl : noneEqB (Value.vlist vs) = false := rfl
    rw [if_neg (by rw [hl]; simp)]
    have hit : iterElems (Value.vlist vs) = .ok vs := rfl
    rw [hit]
    simp only [hm]
  · intro hl hi
    rw [coerceLoop]
    simp only [hl, hi]

/-- Witness for C6: `int("abc")` fails during scalar coercion, during list
coercion, and during the construction loop, each time logged with its full
context. -/
theorem claim6_witness :
    instantiateFull (.scalar .cint) "t" (.vstr "abc") =
      (.error (.intParseFail "abc"),
        [.coercionFailure (.scalar .cint) "t" (.vstr "abc")])
    ∧ instantiateFull (.listOf .cint) "t" (.vlist [.vstr "abc"]) =
      (.error (.intParseFail "abc"),
        [.coercionFailure (.listOf .cint) "t" (.vlist [.vstr "abc"])])
    ∧ coerceLoop [("t", .scalar .cint)] [("t", .vstr "abc")] =
      .error (.intParseFail "abc") := by
  refine ⟨?_, ?_, ?_⟩
  · exact (claim6_coercion_failure_logged .cint (.scalar .cint) "t" (.vstr "abc")
      [.vstr "abc"] (.intParseFail "abc") [("t", .vstr "abc")] []).1 (by simp) rfl
  · exact (claim6_coercion_failure_logged .cint (.scalar .cint) "t" (.vstr "abc")
      [.vstr "abc"] (.intParseFail "abc") [("t", .vstr "abc")] []).2.1 rfl
  · exact (claim6_coercion_failure_logged .cint (.scalar .cint) "t" (.vstr "abc")
      [.vstr "abc"] (.intParseFail "abc") [("t", .vstr "abc")] []).2.2 rfl rfl

/-- C10: converting to plain JSON data a value that is not null, not a
mapping, not a timestamp, not a protocol instance and exposes no
`to_json` method logs the offending value and fails with the
serialization ValueError ("could not serialize object"); there is no
fallback and no value is returned (lines 41-49). -/
theorem claim10_serialization_failure (v : Value)
    (h1 : v ≠ .vnone) (h2 : ∀ kvs, v ≠ .vdict kvs) (h3 : ∀ s, v ≠ .vdatetime s)
    (h4 : ∀ i, v ≠ .vobj i) (h5 : ∀ r, v ≠ .vforeign (some r)) :
    o2jFull v = (.error (.serializationFail v), [.serFailure v]) := by
  cases v with
  | vnone => exact absurd rfl h1
  | vint n => rfl
  | vstr s => rfl
  | vdatetime s => exact absurd rfl (h3 s)
  | vlist vs => rfl
  | vdict kvs => exact absurd rfl (h2 kvs)
  | vobj i => exact absurd rfl (h4 i)
  | vforeign o =>
    cases o with
    | none => rfl
    | some r => exact absurd rfl (h5 r)

/-- Witness for C10: serializing the int 7 fails with the serialization
error and logs the offending value. -/
theorem claim10_witness :
    o2jFull (.vint 7) =
      (.error (.serializationFail (.vint 7)), [.serFailure (.vint 7)]) :=
  claim10_serialization_failure (.vint 7) (by simp) (by simp) (by simp)
    (by simp) (by simp)

/-- C7 counterexample: an instance of a kind whose optional typed
attribute `t` has the uncoercible default `"abc"` holds `t = 5`;
re-deriving the coerced default fails, yet `_changed` reports the
attribute as NOT changed — the exception handler sets `trial = True` and
`changed_key` returns `not trial`, i.e. False (lines 214-219). -/
theorem claim7_counterexample :
    construct BadDefaultKind (.vdict [("t", .vint 5)]) =
      .ok (.mk BadDefaultKind [("t", .vint 5)])
    ∧ instantiateAttr (.scalar .cint) "t" (dget BadDefaultKind.optional "t") =
      .error (.intParseFail "abc")
    ∧ alookup BadDefaultKind.types "t" = some (.scalar .cint)
    ∧ changedKeys (.mk BadDefaultKind [("t", .vint 5)]) = [] := by
  refine ⟨rfl, rfl, rfl, ?_⟩
  simp [changedKeys, changedKey, BadDefaultKind, KindD.required, KindD.optional,
    KindD.types, keysOf, alookup, dget, instantiateAttr, instantiateFull, noneEqB,
    ctorApply, pyIntOfString, digitsToNat, digitsAux, digitVal, Inst.attrs, Inst.kind]

/-- C7 (amended): in change detection, for an attribute that is both
optional and typed, a failure while re-deriving the attribute's coerced
default is treated as "unchanged": the handler sets the comparison result
to True and the attribute is never reported as changed, whatever its
current value. -/
theorem claim7_amended (K : KindD) (x : Inst) (k : String) (ts : TypeSpec)
    (e : PErr) (hkind : x.kind = K)
    (hreq : K.required.contains k = false)
    (hopt : (keysOf K.optional).contains k = true)
    (hts : alookup K.types k = some ts)
    (hfail : instantiateAttr ts k (dget K.optional k) = .error e) :
    k ∉ changedKeys x := by
  apply not_mem_changedKeys
  intro v
  have hTmem : k ∈ keysOf K.types := (alookup_isSome_iff _ _).mp (by simp [hts])
  have hTcont : (keysOf K.types).contains k = true := by simpa using hTmem
  rw [hkind, changedKey, if_neg (by rw [hreq]; simp), if_pos hopt, if_pos hTcont]
  simp only [hts, hfail]
  rfl

/-- Witness for C7 (amended) at the kind with the uncoercible default. -/
theorem claim7_amended_witness :
    "t" ∉ changedKeys (.mk BadDefaultKind [("t", .vint 5)]) :=
  claim7_amended BadDefaultKind (.mk BadDefaultKind [("t", .vint 5)]) "t"
    (.scalar .cint) (.intParseFail "abc") rfl rfl rfl rfl rfl

/-- C9 counterexample: a kind whose optional typed attribute `x` has the
declared default `"5"` (a string) constructs with no input into an
instance holding the int 5 — the coerced default, not the declared
default exactly, and unequal to it under the protocol equality. -/
theorem claim9_counterexample :
    construct CoercedDefaultKind .vnone =
      .ok (.mk CoercedDefaultKind [("x", .vint 5)])
    ∧ alookup CoercedDefaultKind.optional "x" = some (.vstr "5")
    ∧ alookup (Inst.attrs (.mk CoercedDefaultKind [("x", .vint 5)])) "x" =
      some (.vint 5)
    ∧ Value.vint 5 ≠ Value.vstr "5"
    ∧ valueEq (.vint 5) (.vstr "5") = false := by
  refine ⟨rfl, rfl, rfl, by simp, by simp [valueEq]⟩

/-- C9 (amended): when construction with no input succeeds, every optional
attribute NOT subject to type coercion equals its declared default
exactly, while a typed optional attribute holds the result of coercing
its declared default. -/
theorem claim9_amended (K : KindD) (x : Inst)
    (hx : construct K .vnone = .ok x)
    (hnO : nodupKeysB (keysOf K.optional) = true)
    (hnT : nodupKeysB (keysOf K.types) = true) :
    (∀ k d, alookup K.optional k = some d → (keysOf K.types).contains k = false →
      internalNames.contains k = false → alookup x.attrs k = some d)
    ∧ (∀ k d ts, alookup K.optional k = some d → alookup K.types k = some ts →
      internalNames.contains k = false →
      ∃ w, instantiateAttr ts k d = .ok w ∧ alookup x.attrs k = some w) := by
  obtain ⟨kwargs, kwargs2, attrs1, h1, h2, h3, h4, hxeq⟩ := construct_ok_elim hx
  have hkw : kwargs = K.optional := by
    rw [normalizeInput] at h1
    exact (Except.ok.inj h1).symm
  rw [hkw] at h3
  rw [updateAll_nil hnO] at h4
  have hn2 : nodupKeysB (keysOf kwargs2) = true := applyPolicy_nodup h3 hnO
  have lookup0 : ∀ k, alookup (updateAll K.optional kwargs2) k =
      oElse (alookup kwargs2 k) (alookup K.optional k) :=
    fun k => alookup_updateAll hn2 K.optional k
  have hxlook : ∀ k, alookup x.attrs k =
      if internalNames.contains k then none else alookup attrs1 k := by
    intro k
    rw [hxeq, Inst.attrs, filter_internal_lookup]
  have hbase : ∀ k d, alookup K.optional k = some d →
      alookup (updateAll K.optional kwargs2) k = some d := by
    intro k d hd
    have hmem : k ∈ keysOf K.optional := (alookup_isSome_iff _ _).mp (by simp [hd])
    rw [lookup0 k, applyPolicy_preserve_listed h3 (optional_listed hmem), hd]
    rfl
  constructor
  · intro k d hd hTf hki
    have hts : alookup K.types k = none := alookup_none_of_contains_false hTf
    rw [hxlook k, if_neg (by rw [hki]; simp), coerceLoop_none h4 hts]
    exact hbase k d hd
  · intro k d ts hd hts hki
    obtain ⟨v, w, hv, hw, hout⟩ := coerceLoop_some h4 hnT hts
    have hb := hbase k d hd
    rw [hb] at hv
    have hvd : v = d := by
      injection hv with he
      exact he.symm
    subst hvd
    refine ⟨w, hw, ?_⟩
    rw [hxlook k, if_neg (by rw [hki]; simp), hout]

/-- Witness for C9 (amended): the typed optional attribute of the
string-default kind holds the coerced default. -/
theorem claim9_amended_witness :
    ∃ w, instantiateAttr (.scalar .cint) "x" (.vstr "5") = .ok w ∧
      alookup (Inst.attrs (.mk CoercedDefaultKind [("x", .vint 5)])) "x" = some w :=
  (claim9_amended CoercedDefaultKind (.mk CoercedDefaultKind [("x", .vint 5)])
    rfl rfl rfl).2 "x" (.vstr "5") (.scalar .cint) rfl rfl rfl

theorem updateAll_lookup_none {base upds : List (String × Value)} {k : String}
    (hb : alookup base k = none) (hu : alookup upds k = none) :
    alookup (updateAll base upds) k = none := by
  induction upds generalizing base with
  | nil => exact hb
  | cons kv rest ih =>
    obtain ⟨k1, v1⟩ := kv
    rw [alookup] at hu
    by_cases h1 : k1 = k
    · simp [h1] at hu
    · simp only [h1, if_false] at hu
      rw [updateAll, List.foldl_cons]
      have step : List.foldl (fun m kv => updState m kv.1 kv.2) (updState base k1 v1) rest
          = updateAll (updState base k1 v1) rest := rfl
      rw [step]
      exact ih (by rw [alookup_updState, if_neg h1]; exact hb) hu

/-- C3: two instances compare equal under `MetaObject.__eq__` exactly when
they are of the same entity kind and their values agree pairwise (under
the protocol equality, absent attributes reading as None) on every name
in the kind's resolved compared set; and updating any attribute whose
name is outside the compared set — including unlisted extras — never
changes the result of the equality operation. -/
theorem claim3_equality (x y : Inst)
    (hinj : KindD.name x.kind = KindD.name y.kind → x.kind = y.kind) :
    (instEq x y = true ↔
      (x.kind = y.kind ∧ ∀ k ∈ resolveCompared x.kind,
        valueEq (dget x.attrs k) (dget y.attrs k) = true))
    ∧ (∀ k, k ∉ resolveCompared x.kind → ∀ w,
        instEq (.mk x.kind (updState x.attrs k w)) y = instEq x y) := by
  obtain ⟨kx, ax⟩ := x
  obtain ⟨ky, ay⟩ := y
  simp only [Inst.kind, Inst.attrs] at hinj ⊢
  constructor
  · constructor
    · intro h
      rw [instEq_unfold] at h
      simp only [Bool.and_eq_true] at h
      obtain ⟨⟨hname, hkeys⟩, hcmp⟩ := h
      have hkeq : kx = ky := hinj (by simpa using hname)
      refine ⟨hkeq, ?_⟩
      intro k hk
      rw [comparedEq_all] at hcmp
      exact List.all_eq_true.mp hcmp k hk
    · intro h
      obtain ⟨hkeq, hp⟩ := h
      subst hkeq
      rw [instEq_unfold]
      simp only [Bool.and_eq_true]
      refine ⟨⟨by simp, sameKeySet_refl _⟩, ?_⟩
      rw [comparedEq_all]
      exact List.all_eq_true.mpr hp
  · intro k hk w
    rw [instEq_unfold, instEq_unfold]
    congr 1
    rw [comparedEq_all, comparedEq_all]
    apply all_congr_mem
    intro k2 hk2
    show valueEq (dget (updState ax k w) k2) (dget ay k2)
        = valueEq (dget ax k2) (dget ay k2)
    have hne : ¬ k = k2 := fun he => hk (he ▸ hk2)
    have hd : dget (updState ax k w) k2 = dget ax k2 := by
      rw [dget, alookup_updState, if_neg hne, dget]
    rw [hd]

/-- Witness for C3 at the Point instance. -/
theorem claim3_witness :
    (instEq pointInst pointInst = true ↔
      (pointInst.kind = pointInst.kind ∧ ∀ k ∈ resolveCompared pointInst.kind,
        valueEq (dget pointInst.attrs k) (dget pointInst.attrs k) = true))
    ∧ (∀ k, k ∉ resolveCompared pointInst.kind → ∀ w,
        instEq (.mk pointInst.kind (updState pointInst.attrs k w)) pointInst =
          instEq pointInst pointInst) :=
  claim3_equality pointInst pointInst (fun _ => rfl)

/-- C4: construction enforces the unlisted policy on every input key
outside the listed set.  Under 'raise' it fails with the
unlisted-attribute error; under 'del' the key is silently removed and the
instance has no such attribute; under None (ignore) the key passes
through to the instance and (for non-reserved names) change detection
always reports it as changed. -/
theorem claim4_unlisted_policy (K : KindD) (kvs : List (String × Value))
    (k : String) (v : Value) :
    (K.unlisted = some .uraise → (∀ r ∈ K.required, hasKey kvs r = true) →
      (k, v) ∈ kvs → (listedOf K).contains k = false →
      ∃ k2, (listedOf K).contains k2 = false ∧
        construct K (.vdict kvs) = .error (.unlistedAttr k2))
    ∧ (K.unlisted = some .udel → ∀ y, construct K (.vdict kvs) = .ok y →
        (listedOf K).contains k = false → alookup y.attrs k = none)
    ∧ (K.unlisted = none → ∀ y, construct K (.vdict kvs) = .ok y →
        nodupKeysB (keysOf kvs) = true → (k, v) ∈ kvs →
        (listedOf K).contains k = false → reservedNames.contains k = false →
        alookup y.attrs k = some v ∧ k ∈ changedKeys y) := by
  refine ⟨?_, ?_, ?_⟩
  · intro hu hreq hm hl
    have hkm : k ∈ keysOf kvs := by
      rw [keysOf]
      exact List.mem_map.mpr ⟨(k, v), hm, rfl⟩
    obtain ⟨k2, hk2, hpe⟩ := applyPolicy_uraise_err hu hkm hl
    refine ⟨k2, hk2, ?_⟩
    rw [construct]
    have h1 : normalizeInput K (.vdict kvs) = .ok kvs := rfl
    have h2 : checkRequired K (.vdict kvs) kvs = .ok () := checkRequired_ok_iff.mpr hreq
    simp only [h1, h2, hpe]
  · intro hu y hy hl
    obtain ⟨kwargs, kwargs2, attrs1, h1, h2, h3, h4, hyeq⟩ := construct_ok_elim hy
    have hkw : kwargs = kvs := by
      rw [normalizeInput] at h1
      exact (Except.ok.inj h1).symm
    subst hkw
    have hts : alookup K.types k = none := by
      rw [alookup_eq_none]
      intro hmem
      rw [types_listed hmem] at hl
      cases hl
    have hopt : alookup K.optional k = none := by
      rw [alookup_eq_none]
      intro hmem
      rw [optional_listed hmem] at hl
      cases hl
    have hkw2 : alookup kwargs2 k = none := by
      have he := applyPolicy_udel hu kwargs
      rw [he] at h3
      cases h3
      rw [alookup_filter_key, if_neg (by rw [hl]; simp)]
    have h0 : alookup (updateAll (updateAll [] K.optional) kwargs2) k = none :=
      updateAll_lookup_none (updateAll_lookup_none (by rw [alookup]) hopt) hkw2
    rw [hyeq, Inst.attrs, filter_internal_lookup]
    by_cases hki : internalNames.contains k = true
    · rw [if_pos hki]
    · rw [if_neg hki, coerceLoop_none h4 hts]
      exact h0
  · intro hu y hy hn hm hl hres
    obtain ⟨kwargs, kwargs2, attrs1, h1, h2, h3, h4, hyeq⟩ := construct_ok_elim hy
    have hkw : kwargs = kvs := by
      rw [normalizeInput] at h1
      exact (Except.ok.inj h1).symm
    subst hkw
    have he := applyPolicy_ignore hu kwargs
    rw [he] at h3
    cases h3
    have hts : alookup K.types k = none := by
      rw [alookup_eq_none]
      intro hmem
      rw [types_listed hmem] at hl
      cases hl
    have hopt : alookup K.optional k = none := by
      rw [alookup_eq_none]
      intro hmem
      rw [optional_listed hmem] at hl
      cases hl
    have hv : alookup kwargs k = some v := alookup_of_mem_nodup hn hm
    have h0 : alookup (updateAll (updateAll [] K.optional) kwargs) k = some v := by
      rw [alookup_updateAll hn, hv]
      rfl
    have hki : internalNames.contains k = false := by
      cases hc : internalNames.contains k with
      | false => rfl
      | true =>
        rw [reserved_of_internal hc] at hres
        cases hres
    have hlook : alookup y.attrs k = some v := by
      rw [hyeq, Inst.attrs, filter_internal_lookup, if_neg (by rw [hki]; simp),
        coerceLoop_none h4 hts]
      exact h0
    refine ⟨hlook, ?_⟩
    have hyk : y.kind = K := by rw [hyeq]; rfl
    have hreqc : K.required.contains k = false := by
      cases hc : K.required.contains k with
      | false => rfl
      | true =>
        exfalso
        rw [required_listed (mem_of_contains hc)] at hl
        cases hl
    have hoptc : (keysOf K.optional).contains k = false := by
      cases hc : (keysOf K.optional).contains k with
      | false => rfl
      | true =>
        exfalso
        rw [optional_listed (mem_of_contains hc)] at hl
        cases hl
    apply mem_changedKeys (mem_of_alookup hlook)
    rw [hyk, changedKey, if_neg (by rw [hreqc]; simp), if_neg (by rw [hoptc]; simp),
      hres]
    rfl

/-- Witness for C4 at three concrete kinds, one per policy. -/
theorem claim4_witness :
    (∃ k2, (listedOf RaiseKind).contains k2 = false ∧
      construct RaiseKind (.vdict [("x", .vint 1), ("junk", .vint 9)]) =
        .error (.unlistedAttr k2))
    ∧ alookup (Inst.attrs (.mk DropKind [("x", .vint 1)])) "junk" = none
    ∧ (alookup (Inst.attrs (.mk IgnoreKind [("x", .vint 1), ("junk", .vint 9)]))
        "junk" = some (.vint 9)
      ∧ "junk" ∈ changedKeys (.mk IgnoreKind [("x", .vint 1), ("junk", .vint 9)])) := by
  refine ⟨?_, ?_, ?_⟩
  · exact (claim4_unlisted_policy RaiseKind [("x", .vint 1), ("junk", .vint 9)]
      "junk" (.vint 9)).1 rfl (by decide) (by simp) (by decide)
  · exact (claim4_unlisted_policy DropKind [("x", .vint 1), ("junk", .vint 9)]
      "junk" (.vint 9)).2.1 rfl (.mk DropKind [("x", .vint 1)]) rfl (by decide)
  · exact (claim4_unlisted_policy IgnoreKind [("x", .vint 1), ("junk", .vint 9)]
      "junk" (.vint 9)).2.2 rfl (.mk IgnoreKind [("x", .vint 1), ("junk", .vint 9)])
      rfl (by decide) (by simp) (by decide) (by decide)

theorem oElse_none_right {α : Type} (o : Option α) : oElse o none = o := by
  cases o <;> rfl

/-- C8 counterexample: under the 'raise' unlisted policy, an instance
constructs fine from a mapping, but copy-constructing from the instance
always fails: `vars(obj)` contains the bookkeeping attributes
`_reserved`/`_compared`/`_printed`, which are not listed, so `__init__`
raises the unlisted-attribute error instead of producing a copy. -/
theorem claim8_counterexample :
    construct RaiseKind (.vdict [("x", .vint 1)]) =
      .ok (.mk RaiseKind [("x", .vint 1)])
    ∧ construct RaiseKind (.vobj (.mk RaiseKind [("x", .vint 1)])) =
      .error (.unlistedAttr "_reserved") := ⟨rfl, rfl⟩

/-- C8 (amended): for every successfully constructed instance `x` of a
kind whose unlisted policy is not 'raise' (and whose schema names do not
collide with the bookkeeping names), copy construction — constructing a
new instance of the same kind from `x` itself — succeeds, and the new
instance is equal to `x` under the protocol equality; under 'raise' copy
construction instead fails on the bookkeeping attributes. -/
theorem claim8_amended (K : KindD) (kvs : List (String × Value)) (x : Inst)
    (hx : construct K (.vdict kvs) = .ok x)
    (hpol : K.unlisted ≠ some .uraise)
    (hnI : nodupKeysB (keysOf kvs) = true)
    (hwI : pairsWF kvs = true)
    (hnO : nodupKeysB (keysOf K.optional) = true)
    (hwO : pairsWF K.optional = true)
    (hnT : nodupKeysB (keysOf K.types) = true)
    (hnames : ∀ k ∈ listedOf K, internalNames.contains k = false) :
    ∃ y, construct K (.vobj x) = .ok y ∧ instEq y x = true := by
  obtain ⟨hxk, hxn, hint, hreqx, hoptn, hdelx, hidemx, hwfx, hprov⟩ :=
    construct_facts hx hnI hnO hnT
  obtain ⟨Kx, ax⟩ := x
  simp only [Inst.kind] at hxk
  subst hxk
  simp only [Inst.attrs] at hxn hint hreqx hoptn hdelx hidemx hwfx hprov
  have hvars : varsOf (.mk Kx ax) = ax ++
      [("_reserved", encodeStrs reservedNames),
       ("_compared", encodeStrs (resolveCompared Kx)),
       ("_printed", encodeStrs (resolvePrinted Kx))] := rfl
  have hdisj : ∀ k ∈ internalNames, k ∉ keysOf ax := by
    intro k hk
    rw [← alookup_eq_none]
    exact hint k (by simpa using hk)
  obtain ⟨y, hok, hyk, hylook⟩ :=
    reconstruct Kx (.vobj (.mk Kx ax)) ax (varsOf (.mk Kx ax)) rfl
      (by
        rw [hvars, keysOf_append]
        have hkt : keysOf
            [(("_reserved" : String), encodeStrs reservedNames),
             ("_compared", encodeStrs (resolveCompared Kx)),
             ("_printed", encodeStrs (resolvePrinted Kx))] = internalNames := rfl
        rw [hkt]
        exact nodupKeysB_append hxn (by decide) hdisj)
      hnO hnT hnames
      (by
        intro k hki
        rw [hvars, alookup_append, alookup_internal_triple hki, oElse_none_right])
      (by
        intro r hr
        exact hreqx r hr (hnames r (mem_of_contains (required_listed hr))))
      hoptn
      (fun h => absurd h hpol)
      hdelx
      (by
        intro a ts hts
        have hmemT : a ∈ keysOf Kx.types := (alookup_isSome_iff _ _).mp (by simp [hts])
        exact hidemx a ts hts (hnames a (mem_of_contains (types_listed hmemT))))
  obtain ⟨Ky, ay⟩ := y
  simp only [Inst.kind] at hyk
  subst hyk
  simp only [Inst.attrs] at hylook
  have heq : ∀ k, alookup ay k = alookup ax k := by
    intro k
    rw [hylook k]
    cases hki : internalNames.contains k with
    | true =>
      rw [if_pos rfl, hint k hki]
    | false =>
      rw [if_neg Bool.false_ne_true]
  exact ⟨.mk Ky ay, hok, instEq_of_lookup_eq Ky ax ay heq hxn (hwfx hwI hwO)⟩

/-- Witness for C8 (amended): copying an ignore-policy instance that even
carries an extra unlisted attribute succeeds and compares equal. -/
theorem claim8_amended_witness :
    ∃ y, construct IgnoreKind
        (.vobj (.mk IgnoreKind [("x", .vint 1), ("extra", .vstr "e")])) = .ok y
      ∧ instEq y (.mk IgnoreKind [("x", .vint 1), ("extra", .vstr "e")]) = true :=
  claim8_amended IgnoreKind [("x", .vint 1), ("extra", .vstr "e")]
    (.mk IgnoreKind [("x", .vint 1), ("extra", .vstr "e")]) rfl (by decide)
    rfl rfl rfl rfl rfl (by decide)

theorem internal_false_of_dataKey {k : String} (h : isDataKeyB k = true) :
    internalNames.contains k = false := by
  cases hc : internalNames.contains k with
  | false => rfl
  | true =>
    exfalso
    rw [isDataKeyB, Bool.and_eq_true] at h
    rw [reserved_of_internal hc] at h
    simp at h

/-- The `json.dumps` walk over the items of an instance whose data
attribute values are all scalars keeps them unchanged. -/
theorem encodeInstItems_id {l : List (String × Value)}
    (h : ∀ p ∈ l, isDataKeyB p.1 = true ∧ scalarShape p.2) :
    encodeInstItems l = .ok l := by
  induction l with
  | nil => simp [encodeInstItems]
  | cons p rest ih =>
    obtain ⟨k, v⟩ := p
    obtain ⟨hd, hs⟩ := h (k, v) (List.mem_cons_self _ _)
    have hv : encodeItemVal v = .ok v := by
      rcases hs with ⟨n, hn⟩ | ⟨s, hs2⟩ <;> subst_vars <;>
        simp [encodeItemVal, encodeJson]
    have hr : encodeInstItems rest = .ok rest :=
      ih (fun p hp => h p (List.mem_cons_of_mem _ hp))
    rw [encodeInstItems]
    simp only [hd, if_true, hv, hr]

/-- C1: for an entity kind whose compared set covers all semantically
relevant attributes — formalized as: the required attributes carry the
whole instance (`types` keys coincide with `required`, no optional
attributes, the resolved compared set lies inside `required`), all
declared constructors are the scalar `int`/`str` conversions, names stay
clear of the underscore/reserved namespace, and the construction input
mentions only required keys — serializing a constructed instance to JSON
and parsing it back through the kind's construction yields an instance
equal to the original under the protocol equality:
`kind.loads(x.dumps()) == x`. -/
theorem claim1_roundtrip (K : KindD) (kvs : List (String × Value)) (x : Inst)
    (htypes : keysOf K.types = K.required)
    (hscalar : ∀ p ∈ K.types, p.2 = TypeSpec.scalar .cint ∨ p.2 = TypeSpec.scalar .cstr)
    (hopt : K.optional = [])
    (hcmp : ∀ k ∈ resolveCompared K, k ∈ K.required)
    (hnR : nodupKeysB K.required = true)
    (hnames : ∀ k ∈ K.required, isDataKeyB k = true)
    (hkeys : ∀ p ∈ kvs, p.1 ∈ K.required)
    (hnI : nodupKeysB (keysOf kvs) = true)
    (hx : construct K (.vdict kvs) = .ok x) :
    ∃ y, loadsDumps K x = .ok y ∧ instEq y x = true := by
  have hnT : nodupKeysB (keysOf K.types) = true := by rw [htypes]; exact hnR
  have hnO : nodupKeysB (keysOf K.optional) = true := by rw [hopt]; rfl
  obtain ⟨hxk, hxn, hint, hreqx, hoptn, hdelx, hidemx, hwfx, hprov⟩ :=
    construct_facts hx hnI hnO hnT
  obtain ⟨Kx, ax⟩ := x
  simp only [Inst.kind] at hxk
  subst hxk
  simp only [Inst.attrs] at hxn hint hreqx hoptn hdelx hidemx hwfx hprov
  -- every data attribute key is required and its value is a scalar
  have hkey_req : ∀ k, (alookup ax k).isSome = true → k ∈ Kx.required := by
    intro k hk
    rcases hprov k hk with hk2 | hk2
    · obtain ⟨⟨k2, v2⟩, hm, he⟩ := List.mem_map.mp hk2
      cases he
      exact hkeys (k2, v2) hm
    · rw [hopt] at hk2
      simp [keysOf] at hk2
  have hattr : ∀ p ∈ ax, isDataKeyB p.1 = true ∧ scalarShape p.2 := by
    intro p hp
    obtain ⟨k, v⟩ := p
    have hl : alookup ax k = some v := alookup_of_mem_nodup hxn hp
    have hkR : k ∈ Kx.required := hkey_req k (by simp [hl])
    have hkD : isDataKeyB k = true := hnames k hkR
    refine ⟨hkD, ?_⟩
    have hkT : k ∈ keysOf Kx.types := by rw [htypes]; exact hkR
    obtain ⟨ts, hts⟩ := Option.isSome_iff_exists.mp ((alookup_isSome_iff _ _).mpr hkT)
    obtain ⟨w, hw, hwi⟩ := hidemx k ts hts (internal_false_of_dataKey hkD)
    rw [hl] at hw
    have hvw : v = w := Option.some.inj hw
    subst hvw
    rcases hscalar (k, ts) (mem_of_alookup hts) with hc | hc
    · have hc2 : ts = TypeSpec.scalar .cint := hc
      subst hc2
      exact instantiateAttr_scalar_ok hwi
    · have hc2 : ts = TypeSpec.scalar .cstr := hc
      subst hc2
      exact instantiateAttr_scalar_ok hwi
  have hwfax : pairsWF ax = true :=
    pairsWF_of_forall (fun kv hkv => valueWF_scalar (hattr kv hkv).2)
  -- dumps produces exactly the attribute mapping
  have hdumps : dumpsJson (.mk Kx ax) = .ok (.vdict ax) := by
    rw [dumpsJson, encodeJson]
    simp only [encodeInstItems_id hattr]
  -- and reconstruction from it reproduces the attribute store
  have hlistnames : ∀ k ∈ listedOf Kx, internalNames.contains k = false := by
    intro k hk
    rcases listed_cases (by simpa using hk) with hk2 | hk2 | hk2
    · exact internal_false_of_dataKey (hnames k hk2)
    · rw [hopt] at hk2
      simp [keysOf] at hk2
    · rw [htypes] at hk2
      exact internal_false_of_dataKey (hnames k hk2)
  obtain ⟨y, hok, hyk, hylook⟩ :=
    reconstruct Kx (.vdict ax) ax ax rfl hxn hnO hnT hlistnames
      (fun k _ => rfl)
      (by
        intro r hr
        have hkT : r ∈ keysOf Kx.types := by rw [htypes]; exact hr
        obtain ⟨ts, hts⟩ := Option.isSome_iff_exists.mp ((alookup_isSome_iff _ _).mpr hkT)
        obtain ⟨w, hw, hwi⟩ :=
          hidemx r ts hts (internal_false_of_dataKey (hnames r hr))
        simp [hw])
      (by
        intro k _ _
        rw [hopt, alookup])
      (by
        intro _ key hkey
        exact required_listed (hkey_req key ((alookup_isSome_iff _ _).mpr hkey)))
      (by
        intro _ k hl
        rw [alookup_eq_none]
        intro hm
        rw [required_listed (hkey_req k ((alookup_isSome_iff _ _).mpr hm))] at hl
        cases hl)
      (by
        intro a ts hts
        have hkT : a ∈ keysOf Kx.types := (alookup_isSome_iff _ _).mp (by simp [hts])
        have haR : a ∈ Kx.required := by rw [htypes] at hkT; exact hkT
        exact hidemx a ts hts (internal_false_of_dataKey (hnames a haR)))
  obtain ⟨Ky, ay⟩ := y
  simp only [Inst.kind] at hyk
  subst hyk
  simp only [Inst.attrs] at hylook
  have heq : ∀ k, alookup ay k = alookup ax k := by
    intro k
    rw [hylook k]
    cases hki : internalNames.contains k with
    | true => rw [if_pos rfl, hint k hki]
    | false => rw [if_neg Bool.false_ne_true]
  refine ⟨.mk Ky ay, ?_, instEq_of_lookup_eq Ky ax ay heq hxn hwfax⟩
  rw [loadsDumps]
  simp only [hdumps]
  exact hok

/-- Witness for C1: the spec's Point scenario,
`Point.loads(Point({"x": 1, "y": 2}).dumps()) == Point({"x": 1, "y": 2})`. -/
theorem claim1_witness :
    ∃ y, loadsDumps PointKind pointInst = .ok y ∧ instEq y pointInst = true :=
  claim1_roundtrip PointKind [("x", .vint 1), ("y", .vint 2)] pointInst rfl
    (by decide) rfl (by decide) (by decide) (by decide) (by decide) rfl rfl

end Metaobject
